import Mathlib

/-!
# Sweet shop inventory: storage and query engine

A shallow embedding of `frontend/js/storage.js` (the persistent record store, its
add / delete / purchase / restock operations and its category list) and of the functions
of `frontend/js/utils.js` that validate a candidate and filter, sort and summarise a
collection.

Modelling conventions

* A record is a typed `Sweet`: `id` is an integer, `name` and `category` are strings,
  `price` and `quantity` are JavaScript numbers (`JsNum`).  Finite prices and quantities
  are exact rationals: their rounding and overflow as doubles are not modelled.  The one
  sum computed on ids, `maxId + 1` in `getNextId`, is rounded to the nearest double
  (`toDouble`).  The quantity argument of `purchaseSweet` and `restockSweet` is an integer
  of either sign.
* `localStorage` is one slot (`STORAGE_KEY`), absent (`none`) or holding a document.
  Every operation takes the slot and returns its result paired with the new slot.
* What the JavaScript runtime contributes (`JSON.stringify`, `JSON.parse`, truthiness of
  the stored text, whether `localStorage.setItem` throws, number formatting and number
  parsing) is a `Host`.  General theorems quantify over every host; `refHost` and
  `fullHost` are two executable hosts.  A stored text either is rejected by `JSON.parse`
  or parses to a collection of typed records: texts that parse to anything else are
  outside the model, and with them the `catch` branches they lead to.  The `catch` branch
  of `addSweet` is modelled: it is entered when the spread call `Math.max(...ids)` is given
  more arguments than the host takes (`spreadThrows`).
* The string functions the query functions use (`toLowerCase`, `localeCompare`) are a
  `Text`, with `refText` an executable one.  `Array.prototype.sort` is a stable insertion
  sort, `new Set` keeps first occurrences.
-/

namespace SweetShop

/-! ## JavaScript numbers -/

/-- JavaScript number values: `NaN`, the two infinities and the finite numbers. -/
inductive JsNum where
  | nan : JsNum
  | negInf : JsNum
  | fin (v : Rat) : JsNum
  | posInf : JsNum
deriving DecidableEq

namespace JsNum

/-- Unary minus. -/
def neg : JsNum → JsNum
  | nan => nan
  | negInf => posInf
  | fin v => fin (-v)
  | posInf => negInf

/-- The `+` operator on numbers. -/
def add : JsNum → JsNum → JsNum
  | nan, _ => nan
  | negInf, nan => nan
  | negInf, negInf => negInf
  | negInf, fin _ => negInf
  | negInf, posInf => nan
  | fin _, nan => nan
  | fin _, negInf => negInf
  | fin a, fin b => fin (a + b)
  | fin _, posInf => posInf
  | posInf, nan => nan
  | posInf, negInf => nan
  | posInf, fin _ => posInf
  | posInf, posInf => posInf

/-- The binary `-` operator on numbers. -/
def sub (a b : JsNum) : JsNum := add a (neg b)

/-- The `<` operator on numbers: every comparison with `NaN` is false. -/
def lt : JsNum → JsNum → Bool
  | nan, _ => false
  | negInf, nan => false
  | negInf, negInf => false
  | negInf, fin _ => true
  | negInf, posInf => true
  | fin _, nan => false
  | fin _, negInf => false
  | fin a, fin b => decide (a < b)
  | fin _, posInf => true
  | posInf, _ => false

/-- The `<=` operator on numbers: every comparison with `NaN` is false. -/
def le : JsNum → JsNum → Bool
  | nan, _ => false
  | negInf, nan => false
  | negInf, negInf => true
  | negInf, fin _ => true
  | negInf, posInf => true
  | fin _, nan => false
  | fin _, negInf => false
  | fin a, fin b => decide (a ≤ b)
  | fin _, posInf => true
  | posInf, nan => false
  | posInf, negInf => false
  | posInf, fin _ => false
  | posInf, posInf => true

/-- The global `isNaN` on a number. -/
def isNaN : JsNum → Bool
  | nan => true
  | _ => false

/-- An integer as a number. -/
def ofInt (n : Int) : JsNum := fin n

end JsNum

/-! ## Data model -/

/-- The inventory record. -/
structure Sweet where
  id : Int
  name : String
  category : String
  price : JsNum
  quantity : JsNum
deriving DecidableEq

/-- The raw form input handed to `validateSweet` and `addSweet`: four strings. -/
structure Candidate where
  name : String
  category : String
  price : String
  quantity : String
deriving DecidableEq

/-- The result object of `purchaseSweet` and `restockSweet`. -/
structure Result where
  success : Bool
  message : String
deriving DecidableEq

/-- The result object of `validateSweet`. -/
structure Validation where
  isValid : Bool
  errors : List String
deriving DecidableEq

/-- The JavaScript runtime as far as the storage engine uses it.  `σ` is the type of
stored documents (the strings of `localStorage`). -/
structure Host (σ : Type) where
  /-- `JSON.stringify` on a collection. -/
  stringify : List Sweet → σ
  /-- `JSON.parse`; `none` when it throws. -/
  parse : σ → Option (List Sweet)
  /-- Whether the stored text is falsy in `data ? … : …` (the empty string). -/
  falsy : σ → Bool
  /-- Whether `localStorage.setItem(STORAGE_KEY, v)` returns normally (it throws when the
  medium rejects the write, for instance on exceeded quota). -/
  accepts : σ → Bool
  /-- The string a number becomes inside a template literal. -/
  numToString : JsNum → String
  /-- The global `parseFloat` on a string. -/
  parseFloat : String → JsNum
  /-- The global `parseInt(·, 10)` on a string. -/
  parseInt : String → JsNum
  /-- The conversion `Number(·)` of a string, which the global `isNaN` applies first. -/
  toNumber : String → JsNum
  /-- The number of arguments a call can take: spreading a longer array into a call, as
  `Math.max(...ids)` does, throws a `RangeError`. -/
  maxArgs : Nat

/-! ## storage.js -/

section Storage

variable {σ : Type}

/-- The array literal of `getInitialData`: the seed dataset. -/
def initialData : List Sweet :=
  [ { id := 1001, name := "Kaju Katli", category := "Nut-Based",
      price := JsNum.fin 50, quantity := JsNum.fin 20 },
    { id := 1002, name := "Gajar Halwa", category := "Vegetable-Based",
      price := JsNum.fin 30, quantity := JsNum.fin 15 },
    { id := 1003, name := "Gulab Jamun", category := "Milk-Based",
      price := JsNum.fin 10, quantity := JsNum.fin 50 } ]

/-- The function `saveSweets`: one `setItem` of the whole serialised collection; `false`
and an untouched slot when `setItem` throws. -/
def saveSweets (h : Host σ) (st : Option σ) (sweets : List Sweet) : Bool × Option σ :=
  if h.accepts (h.stringify sweets) then (true, some (h.stringify sweets))
  else (false, st)

/-- The function `getInitialData`: saves the seed (ignoring the outcome) and returns it. -/
def getInitialData (h : Host σ) (st : Option σ) : List Sweet × Option σ :=
  (initialData, (saveSweets h st initialData).2)

/-- The function `getSweets`: the parsed slot, or the seed when the slot is absent, holds
falsy text, or `JSON.parse` throws. -/
def getSweets (h : Host σ) (st : Option σ) : List Sweet × Option σ :=
  match st with
  | none => getInitialData h st
  | some data =>
    if h.falsy data then getInitialData h st
    else
      match h.parse data with
      | some sweets => (sweets, st)
      | none => getInitialData h st

/-- The least `e`, counted up from the given one, with `a / 2 ^ e` below `2 ^ 53`. -/
def excessBits : Nat → Nat → Nat → Nat
  | 0, e, _ => e
  | fuel + 1, e, a => if a / 2 ^ e < 2 ^ 53 then e else excessBits fuel (e + 1) a

/-- The double nearest to the integer `n`, ties to the even significand: `n` itself up to
`2 ^ 53` in absolute value, beyond that a multiple of a power of two.  (Overflow to
`Infinity`, beyond `2 ^ 1024`, is not modelled.) -/
def toDouble (n : Int) : Int :=
  if n.natAbs ≤ 2 ^ 53 then n
  else
    let e := excessBits 1100 0 n.natAbs
    let q := n.natAbs / 2 ^ e
    let r := n.natAbs % 2 ^ e
    let up := decide (2 ^ e < 2 * r) || (2 * r == 2 ^ e && q % 2 == 1)
    (if n < 0 then -1 else 1) * (((if up then q + 1 else q) * 2 ^ e : Nat) : Int)

/-- The function `getNextId`: 1001 on the empty array, else `Math.max(...ids) + 1`, the
sum being the one of doubles.  This is the value it returns when the spread call does not
throw, see `spreadThrows`. -/
def getNextId (sweets : List Sweet) : Int :=
  match sweets.map (fun s => s.id) with
  | [] => 1001
  | i :: rest => toDouble (rest.foldl max i + 1)

/-- Whether `getNextId` throws: the array is not empty and `Math.max(...ids)` is given more
arguments than a call can take. -/
def spreadThrows (h : Host σ) (sweets : List Sweet) : Bool :=
  !sweets.isEmpty && decide (h.maxArgs < sweets.length)

/-- The object literal `newSweet` of `addSweet`. -/
def newSweet (h : Host σ) (sweets : List Sweet) (sweet : Candidate) : Sweet :=
  { id := getNextId sweets
    name := sweet.name
    category := sweet.category
    price := h.parseFloat sweet.price
    quantity := h.parseInt sweet.quantity }

/-- The function `addSweet`: loads, pushes the new record, saves and returns the record.
The outcome of `saveSweets` is not looked at; `null` (here `none`) comes from the `catch`
branch, which is entered when `getNextId` throws, before anything is pushed or saved. -/
def addSweet (h : Host σ) (st : Option σ) (sweet : Candidate) : Option Sweet × Option σ :=
  let loaded := getSweets h st
  if spreadThrows h loaded.1 then (none, loaded.2)
  else
    let sweets := loaded.1 ++ [newSweet h loaded.1 sweet]
    (some (newSweet h loaded.1 sweet), (saveSweets h loaded.2 sweets).2)

/-- The function `deleteSweet`: keeps the records whose id differs and returns what
`saveSweets` returns. -/
def deleteSweet (h : Host σ) (st : Option σ) (id : Int) : Bool × Option σ :=
  let loaded := getSweets h st
  saveSweets h loaded.2 (loaded.1.filter (fun s => decide (s.id ≠ id)))

/-- The effect, on the array, of assigning to a field of the object that
`sweets.find(s => s.id === id)` returned: the first record with that id is replaced. -/
def mutateFirst (id : Int) (f : Sweet → Sweet) : List Sweet → List Sweet
  | [] => []
  | s :: rest => if s.id = id then f s :: rest else s :: mutateFirst id f rest

/-- The function `purchaseSweet`. -/
def purchaseSweet (h : Host σ) (st : Option σ) (id : Int) (quantity : Int) :
    Result × Option σ :=
  let loaded := getSweets h st
  match loaded.1.find? (fun s => decide (s.id = id)) with
  | none => ({ success := false, message := "Sweet not found" }, loaded.2)
  | some sweet =>
    if JsNum.lt sweet.quantity (JsNum.ofInt quantity) then
      ({ success := false
         message := "Insufficient stock! Only " ++ h.numToString sweet.quantity
                      ++ " available" }, loaded.2)
    else
      let sweets := mutateFirst id
        (fun s => { s with quantity := JsNum.sub s.quantity (JsNum.ofInt quantity) }) loaded.1
      ({ success := true
         message := "Purchased " ++ h.numToString (JsNum.ofInt quantity) ++ " "
                      ++ sweet.name ++ "(s)" }, (saveSweets h loaded.2 sweets).2)

/-- The function `restockSweet`. -/
def restockSweet (h : Host σ) (st : Option σ) (id : Int) (quantity : Int) :
    Result × Option σ :=
  let loaded := getSweets h st
  match loaded.1.find? (fun s => decide (s.id = id)) with
  | none => ({ success := false, message := "Sweet not found" }, loaded.2)
  | some _ =>
    let sweets := mutateFirst id
      (fun s => { s with quantity := JsNum.add s.quantity (JsNum.ofInt quantity) }) loaded.1
    ({ success := true, message := "Stock updated successfully!" },
      (saveSweets h loaded.2 sweets).2)

/-- The function `clearAll`: `removeItem` empties the slot. -/
def clearAll (_h : Host σ) (_st : Option σ) : Bool × Option σ :=
  (true, none)

end Storage

/-! ## utils.js: the validation rule guarding `addSweet` -/

/-- The characters `String.prototype.trim`, `parseInt`, `parseFloat` and `Number` skip:
the white space and line terminator code points of the language. -/
def isJsSpace (c : Char) : Bool :=
  c.toNat = 9 || c.toNat = 10 || c.toNat = 11 || c.toNat = 12 || c.toNat = 13
    || c.toNat = 32 || c.toNat = 160 || c.toNat = 5760
    || (8192 ≤ c.toNat && c.toNat ≤ 8202)
    || c.toNat = 8232 || c.toNat = 8233 || c.toNat = 8239 || c.toNat = 8287
    || c.toNat = 12288 || c.toNat = 65279

/-- The method `String.prototype.trim`. -/
def trim (s : String) : String :=
  String.mk (((s.toList.dropWhile isJsSpace).reverse.dropWhile isJsSpace).reverse)

/-- The function `validateSweet`: four independent checks, each pushing one message.
On strings `!x` is `x === ''`, and `isNaN(x)` is `Number(x)` being `NaN`. -/
def validateSweet {σ : Type} (h : Host σ) (sweet : Candidate) : Validation :=
  let e0 : List String := []
  let e1 := if sweet.name == "" || trim sweet.name == "" then
    e0 ++ ["Sweet name is required"] else e0
  let e2 := if sweet.category == "" || trim sweet.category == "" then
    e1 ++ ["Category is required"] else e1
  let e3 := if sweet.price == "" || (h.toNumber sweet.price).isNaN
      || JsNum.lt (h.parseFloat sweet.price) (JsNum.fin 0) then
    e2 ++ ["Valid price is required"] else e2
  let e4 := if sweet.quantity == "" || (h.toNumber sweet.quantity).isNaN
      || JsNum.lt (h.parseInt sweet.quantity) (JsNum.fin 0) then
    e3 ++ ["Valid quantity is required"] else e3
  { isValid := decide (e4.length = 0), errors := e4 }

/-! ## Two executable hosts -/

/-- The value of a decimal digit character. -/
def digitValue (c : Char) : Option Nat :=
  if 48 ≤ c.toNat ∧ c.toNat ≤ 57 then some (c.toNat - 48) else none

/-- The longest run of decimal digits at the front, and what follows it. -/
def readDigits : List Char → List Nat × List Char
  | [] => ([], [])
  | c :: cs =>
    match digitValue c with
    | some d => (d :: (readDigits cs).1, (readDigits cs).2)
    | none => ([], c :: cs)

/-- The number a list of digits denotes in the given radix. -/
def digitsToNat (radix : Nat) (ds : List Nat) : Nat :=
  ds.foldl (fun a d => radix * a + d) 0

/-- An optional sign at the front: whether it is a minus, and what follows it. -/
def readSign : List Char → Bool × List Char
  | [] => (false, [])
  | c :: cs => if c = '-' then (true, cs) else if c = '+' then (false, cs) else (false, c :: cs)

/-- The rational `m * 10 ^ e`. -/
def scale10 (m : Nat) (e : Int) : Rat :=
  match e with
  | Int.ofNat k => ((m * 10 ^ k : Nat) : Rat)
  | Int.negSucc k => mkRat (m : Int) (10 ^ (k + 1))

/-- An optional exponent part `e±digits` at the front: its value and what follows it.
An `e` that no digit follows is not an exponent part. -/
def readExponent : List Char → Int × List Char
  | [] => (0, [])
  | c :: cs =>
    if c = 'e' ∨ c = 'E' then
      if (readDigits (readSign cs).2).1 = [] then (0, c :: cs)
      else
        (if (readSign cs).1 then -((digitsToNat 10 (readDigits (readSign cs).2).1 : Nat) : Int)
          else ((digitsToNat 10 (readDigits (readSign cs).2).1 : Nat) : Int),
         (readDigits (readSign cs).2).2)
    else (0, c :: cs)

/-- The longest unsigned decimal literal (`12`, `12.`, `12.5`, `.5`, each with an optional
exponent part) at the front: its value and what follows it. -/
def readDecimal (cs : List Char) : Option (Rat × List Char) :=
  let ip := readDigits cs
  match ip.2 with
  | [] => if ip.1 = [] then none else some (scale10 (digitsToNat 10 ip.1) 0, [])
  | c :: rest =>
    if c = '.' then
      let fp := readDigits rest
      if ip.1 = [] ∧ fp.1 = [] then none
      else
        let ex := readExponent fp.2
        some (scale10 (digitsToNat 10 (ip.1 ++ fp.1)) (ex.1 - fp.1.length), ex.2)
    else if ip.1 = [] then none
    else
      let ex := readExponent (c :: rest)
      some (scale10 (digitsToNat 10 ip.1) ex.1, ex.2)

/-- The global `parseInt(s, 10)`: leading white space, a sign, then the longest run of
digits; `NaN` when there is no digit. -/
def jsParseInt (s : String) : JsNum :=
  let sg := readSign (s.toList.dropWhile isJsSpace)
  let ds := (readDigits sg.2).1
  if ds = [] then JsNum.nan
  else JsNum.fin (if sg.1 then -((digitsToNat 10 ds : Nat) : Rat) else (digitsToNat 10 ds : Nat))

/-- The global `parseFloat(s)`: leading white space, a sign, then `Infinity` or the
longest decimal literal; `NaN` when there is neither. -/
def jsParseFloat (s : String) : JsNum :=
  let sg := readSign (s.toList.dropWhile isJsSpace)
  if sg.2.take 8 = "Infinity".toList then (if sg.1 then JsNum.negInf else JsNum.posInf)
  else
    match readDecimal sg.2 with
    | some (v, _) => JsNum.fin (if sg.1 then -v else v)
    | none => JsNum.nan

/-- The value of a digit character in a radix up to 16. -/
def radixDigit (radix : Nat) (c : Char) : Option Nat :=
  let v : Option Nat :=
    if 48 ≤ c.toNat ∧ c.toNat ≤ 57 then some (c.toNat - 48)
    else if 97 ≤ c.toNat ∧ c.toNat ≤ 102 then some (c.toNat - 87)
    else if 65 ≤ c.toNat ∧ c.toNat ≤ 70 then some (c.toNat - 55)
    else none
  match v with
  | some d => if d < radix then some d else none
  | none => none

/-- A non-decimal integer literal body: every character a digit of the radix, at least one. -/
def readRadix (radix : Nat) (cs : List Char) : JsNum :=
  match cs.mapM (radixDigit radix) with
  | some (d :: ds) => JsNum.fin ((digitsToNat radix (d :: ds) : Nat) : Rat)
  | _ => JsNum.nan

/-- A signed decimal literal or `Infinity` that is the whole text. -/
def readWholeDecimal (cs : List Char) : JsNum :=
  let sg := readSign cs
  if sg.2 = "Infinity".toList then (if sg.1 then JsNum.negInf else JsNum.posInf)
  else
    match readDecimal sg.2 with
    | some (v, []) => JsNum.fin (if sg.1 then -v else v)
    | _ => JsNum.nan

/-- The conversion `Number(s)` of a string: the trimmed text is empty (zero), a
`0x` / `0o` / `0b` integer literal, or a signed decimal literal or `Infinity`; anything else
is `NaN`. -/
def jsToNumber (s : String) : JsNum :=
  match (trim s).toList with
  | [] => JsNum.fin 0
  | [c] => readWholeDecimal [c]
  | c :: d :: rest =>
    if c = '0' ∧ (d = 'x' ∨ d = 'X') then readRadix 16 rest
    else if c = '0' ∧ (d = 'o' ∨ d = 'O') then readRadix 8 rest
    else if c = '0' ∧ (d = 'b' ∨ d = 'B') then readRadix 2 rest
    else readWholeDecimal (c :: d :: rest)

/-- The digits after the decimal point of `r / d` (with `r < d`), at most `fuel` of them. -/
def fracDigits : Nat → Nat → Nat → List Char
  | 0, _, _ => []
  | fuel + 1, r, d =>
    if r = 0 then [] else Char.ofNat (48 + 10 * r / d) :: fracDigits fuel (10 * r % d) d

/-- Number to string: integers in plain decimal (as the language does below `10 ^ 21`),
other finite values as a decimal fraction. -/
def jsNumToString : JsNum → String
  | JsNum.nan => "NaN"
  | JsNum.negInf => "-Infinity"
  | JsNum.posInf => "Infinity"
  | JsNum.fin v =>
    if v.den = 1 then toString v.num
    else
      (if v.num < 0 then "-" else "") ++ toString (v.num.natAbs / v.den) ++ "."
        ++ String.mk (fracDigits 20 (v.num.natAbs % v.den) v.den)

/-- Stored documents of the executable hosts: `json sweets` is a JSON text that
`JSON.parse` reads as `sweets`; `text s` is a text `JSON.parse` rejects. -/
inductive Doc where
  | text (s : String) : Doc
  | json (sweets : List Sweet) : Doc
deriving DecidableEq

/-- A number as `JSON.stringify` writes it and `JSON.parse` reads it back.  A finite
number is itself.  `NaN` and the infinities are written as `null`; a `null` is no number,
but every comparison and arithmetic operator of the engine converts it to `0`, and as `0`
it is read back here (only a template literal tells the two apart: it prints `null`). -/
def jsonNumber : JsNum → JsNum
  | JsNum.fin v => JsNum.fin v
  | _ => JsNum.fin 0

/-- A record as it reads back from its JSON text. -/
def jsonRecord (s : Sweet) : Sweet :=
  { s with price := jsonNumber s.price, quantity := jsonNumber s.quantity }

/-- A host with a working medium: every write is accepted. -/
def refHost : Host Doc where
  stringify := fun sweets => Doc.json (sweets.map jsonRecord)
  parse := fun d => match d with
    | Doc.text _ => none
    | Doc.json sweets => some sweets
  falsy := fun d => match d with
    | Doc.text s => s == ""
    | Doc.json _ => false
  accepts := fun _ => true
  numToString := jsNumToString
  parseFloat := jsParseFloat
  parseInt := jsParseInt
  toNumber := jsToNumber
  maxArgs := 65535

/-- A host whose medium is full: `setItem` throws on every write. -/
def fullHost : Host Doc :=
  { refHost with accepts := fun _ => false }

/-- A collection whose one record has the id `2 ^ 53`, the first integer whose successor
is not a double. -/
def topIdData : List Sweet :=
  [ { id := 2 ^ 53, name := "A", category := "X", price := JsNum.fin 1,
      quantity := JsNum.fin 1 } ]

/-- A collection of 65536 records, with the ids 1 to 65536: one more than a call of
`refHost` takes as arguments. -/
def manySweets : List Sweet :=
  (List.range 65536).map (fun (i : Nat) =>
    { id := Int.ofNat i + 1, name := "A", category := "X", price := JsNum.fin 1,
      quantity := JsNum.fin 1 })

/-! ## Call sequences and the predicates of the statements -/

section Runs

variable {σ : Type}

/-- One call of a mutating operation of the public API. -/
inductive Op where
  | add (sweet : Candidate) : Op
  | delete (id : Int) : Op
  | purchase (id : Int) (quantity : Int) : Op
  | restock (id : Int) (quantity : Int) : Op

/-- The slot after one call. -/
def Op.exec (h : Host σ) (st : Option σ) : Op → Option σ
  | Op.add sweet => (addSweet h st sweet).2
  | Op.delete id => (deleteSweet h st id).2
  | Op.purchase id quantity => (purchaseSweet h st id quantity).2
  | Op.restock id quantity => (restockSweet h st id quantity).2

/-- The slot after a finite sequence of calls. -/
def run (h : Host σ) (st : Option σ) (ops : List Op) : Option σ :=
  ops.foldl (fun s op => op.exec h s) st

/-- The collection a call hands to `saveSweets`, as a function of the collection it
loaded; the loaded collection itself where the call returns without saving. -/
def Op.effect (h : Host σ) (sweets : List Sweet) : Op → List Sweet
  | Op.add sweet =>
    if spreadThrows h sweets then sweets else sweets ++ [newSweet h sweets sweet]
  | Op.delete id => sweets.filter (fun s => decide (s.id ≠ id))
  | Op.purchase id quantity =>
    match sweets.find? (fun s => decide (s.id = id)) with
    | none => sweets
    | some sweet =>
      if JsNum.lt sweet.quantity (JsNum.ofInt quantity) then sweets
      else mutateFirst id
        (fun s => { s with quantity := JsNum.sub s.quantity (JsNum.ofInt quantity) }) sweets
  | Op.restock id quantity =>
    match sweets.find? (fun s => decide (s.id = id)) with
    | none => sweets
    | some _ => mutateFirst id
        (fun s => { s with quantity := JsNum.add s.quantity (JsNum.ofInt quantity) }) sweets

/-- The calls under which non-negativity of prices and quantities is kept: an `add` of a
candidate that `validateSweet` accepts and whose price and quantity texts parse to numbers,
any `delete`, any `purchase`, and a `restock` by a quantity that is not negative. -/
def Op.Guarded (h : Host σ) : Op → Prop
  | Op.add sweet =>
    (validateSweet h sweet).isValid = true ∧ (h.parseFloat sweet.price).isNaN = false ∧
      (h.parseInt sweet.quantity).isNaN = false
  | Op.delete _ => True
  | Op.purchase _ _ => True
  | Op.restock _ quantity => 0 ≤ quantity

/-- The slot holds a document that loads as the collection `sweets`. -/
def Holds (h : Host σ) (st : Option σ) (sweets : List Sweet) : Prop :=
  ∃ data, st = some data ∧ h.falsy data = false ∧ h.parse data = some sweets

/-- The serialised collection reads back as itself: its text is truthy and `JSON.parse`
returns the collection. -/
def ReadsBack (h : Host σ) (sweets : List Sweet) : Prop :=
  h.falsy (h.stringify sweets) = false ∧ h.parse (h.stringify sweets) = some sweets

/-- The medium accepts the write of the collection and it reads back as itself. -/
def Persists (h : Host σ) (sweets : List Sweet) : Prop :=
  h.accepts (h.stringify sweets) = true ∧ ReadsBack h sweets

/-- Serialising and parsing keeps the property `P` of collections: the text of a collection
with `P` is truthy and parses to a collection with `P`. -/
def Keeps (h : Host σ) (P : List Sweet → Prop) : Prop :=
  ∀ sweets, P sweets →
    h.falsy (h.stringify sweets) = false ∧
      ∃ back, h.parse (h.stringify sweets) = some back ∧ P back

/-- The ids of a collection are pairwise distinct. -/
def DistinctIds (sweets : List Sweet) : Prop :=
  (sweets.map (fun s => s.id)).Nodup

/-- Every record has `price >= 0` and `quantity >= 0`. -/
def NonNegative (sweets : List Sweet) : Prop :=
  ∀ s ∈ sweets, JsNum.le (JsNum.fin 0) s.price = true ∧ JsNum.le (JsNum.fin 0) s.quantity = true

/-- The ids lie where adding one is exact for `k` more times: the first id 1001 and every
id of the collection do not pass `2 ^ 53` when `k` is added, and no id is below `-2 ^ 53`. -/
def ExactIds (k : Nat) (sweets : List Sweet) : Prop :=
  (1001 : Int) + (k : Int) ≤ 2 ^ 53 ∧
    ∀ s ∈ sweets, -(2 ^ 53 : Int) ≤ s.id ∧ s.id + (k : Int) ≤ 2 ^ 53

/-- Serialising and parsing keeps the ids: the text of a collection is truthy and parses
to a collection with the same ids in the same order. -/
def KeepsIds (h : Host σ) : Prop :=
  ∀ sweets, h.falsy (h.stringify sweets) = false ∧
    ∃ back, h.parse (h.stringify sweets) = some back ∧
      back.map (fun s => s.id) = sweets.map (fun s => s.id)

/-- The number of `add` calls in a sequence of calls. -/
def addCalls (ops : List Op) : Nat :=
  ops.countP (fun op => match op with
    | Op.add _ => true
    | _ => false)

end Runs

/-! ## utils.js: filter, sort and statistics; storage.js: the category list -/

/-- The string functions of the runtime that the query functions use. -/
structure Text where
  /-- The method `String.prototype.toLowerCase`. -/
  toLowerCase : String → String
  /-- The method `String.prototype.localeCompare`: negative, zero or positive. -/
  localeCompare : String → String → Int

/-- The `filters` object.  The two bounds may be absent properties (`none`). -/
structure Filters where
  searchTerm : String
  category : String
  minPrice : Option String
  maxPrice : Option String

/-- Whether `search` starts the text `s`. -/
def startsWith : List Char → List Char → Bool
  | [], _ => true
  | _ :: _, [] => false
  | c :: cs, d :: ds => c == d && startsWith cs ds

/-- Whether `search` occurs in the text from some position on. -/
def occursIn (search : List Char) : List Char → Bool
  | [] => startsWith search []
  | d :: ds => startsWith search (d :: ds) || occursIn search ds

/-- The method `String.prototype.includes`. -/
def includes (s search : String) : Bool :=
  occursIn search.toList s.toList

/-- The expression `x !== '' ? parseFloat(x) : d` on a bound of the `filters` object; an
absent property is `undefined`, which `parseFloat` reads as the text `undefined`. -/
def boundOr {σ : Type} (h : Host σ) (d : JsNum) : Option String → JsNum
  | none => h.parseFloat "undefined"
  | some x => if x ≠ "" then h.parseFloat x else d

/-- The function `filterSweets`. -/
def filterSweets {σ : Type} (h : Host σ) (t : Text) (sweets : List Sweet)
    (filters : Filters) : List Sweet :=
  sweets.filter (fun sweet =>
    let matchesName :=
      includes (t.toLowerCase sweet.name) (t.toLowerCase filters.searchTerm)
    let matchesCategory := filters.category == "all" || sweet.category == filters.category
    let minPrice := boundOr h (JsNum.fin 0) filters.minPrice
    let maxPrice := boundOr h JsNum.posInf filters.maxPrice
    let matchesPrice := JsNum.le minPrice sweet.price && JsNum.le sweet.price maxPrice
    matchesName && matchesCategory && matchesPrice)

/-- The method `Array.prototype.sort` with a comparator.  The sort is stable, it puts `a`
before `b` when the comparator gives a negative number, after `b` when it gives a positive
one, and takes them as equal otherwise (`0` and `NaN`).  For a consistent comparator every
stable sort returns the same array; the model is insertion sort. -/
def arraySort {α : Type} (compareFn : α → α → JsNum) (xs : List α) : List α :=
  xs.insertionSort (fun a b => JsNum.lt (JsNum.fin 0) (compareFn a b) = false)

/-- The `switch` of `sortSweets`: the variable `comparison`. -/
def comparison (t : Text) (sortBy : String) (a b : Sweet) : JsNum :=
  if sortBy = "name" then JsNum.ofInt (t.localeCompare a.name b.name)
  else if sortBy = "price" then JsNum.sub a.price b.price
  else if sortBy = "quantity" then JsNum.sub a.quantity b.quantity
  else if sortBy = "category" then JsNum.ofInt (t.localeCompare a.category b.category)
  else JsNum.fin 0

/-- The function `sortSweets`: sorts a copy of the array. -/
def sortSweets (t : Text) (sweets : List Sweet) (sortBy : String) (order : String) :
    List Sweet :=
  arraySort (fun a b =>
    if order = "asc" then comparison t sortBy a b
    else JsNum.neg (comparison t sortBy a b)) sweets

/-- The `*` operator on numbers. -/
def JsNum.mul : JsNum → JsNum → JsNum
  | JsNum.nan, _ => JsNum.nan
  | JsNum.negInf, JsNum.nan => JsNum.nan
  | JsNum.negInf, JsNum.negInf => JsNum.posInf
  | JsNum.negInf, JsNum.fin b =>
    if b = 0 then JsNum.nan else if 0 < b then JsNum.negInf else JsNum.posInf
  | JsNum.negInf, JsNum.posInf => JsNum.negInf
  | JsNum.fin _, JsNum.nan => JsNum.nan
  | JsNum.fin a, JsNum.negInf =>
    if a = 0 then JsNum.nan else if 0 < a then JsNum.negInf else JsNum.posInf
  | JsNum.fin a, JsNum.fin b => JsNum.fin (a * b)
  | JsNum.fin a, JsNum.posInf =>
    if a = 0 then JsNum.nan else if 0 < a then JsNum.posInf else JsNum.negInf
  | JsNum.posInf, JsNum.nan => JsNum.nan
  | JsNum.posInf, JsNum.negInf => JsNum.negInf
  | JsNum.posInf, JsNum.fin b =>
    if b = 0 then JsNum.nan else if 0 < b then JsNum.posInf else JsNum.negInf
  | JsNum.posInf, JsNum.posInf => JsNum.posInf

/-- The array `[...new Set(xs)]`: the distinct values of `xs`, each at the place of its
first occurrence. -/
def setValues (xs : List String) : List String :=
  xs.foldl (fun acc x => if x ∈ acc then acc else acc ++ [x]) []

/-- The function `calculateTotalValue`: a `reduce` from `0`. -/
def calculateTotalValue (sweets : List Sweet) : JsNum :=
  sweets.foldl (fun total sweet => JsNum.add total (JsNum.mul sweet.price sweet.quantity))
    (JsNum.fin 0)

/-- The object `getInventoryStats` returns. -/
structure InventoryStats where
  totalItems : Nat
  totalQuantity : JsNum
  totalValue : JsNum
  lowStockCount : Nat
  categories : Nat
deriving DecidableEq

/-- The function `getInventoryStats`. -/
def getInventoryStats (sweets : List Sweet) : InventoryStats :=
  { totalItems := sweets.length
    totalQuantity := sweets.foldl (fun sum s => JsNum.add sum s.quantity) (JsNum.fin 0)
    totalValue := calculateTotalValue sweets
    lowStockCount := (sweets.filter (fun s => JsNum.lt s.quantity (JsNum.fin 10))).length
    categories := (setValues (sweets.map (fun s => s.category))).length }

/-- The UTF-16 code units of a text, which the default sort order compares. -/
def utf16 (s : String) : List Nat :=
  s.toList.flatMap (fun c =>
    if c.toNat < 65536 then [c.toNat]
    else [55296 + (c.toNat - 65536) / 1024, 56320 + (c.toNat - 65536) % 1024])

/-- Lexicographic `<=` on sequences of code units. -/
def unitsLe : List Nat → List Nat → Bool
  | [], _ => true
  | _ :: _, [] => false
  | a :: as, b :: bs => a < b || (a == b && unitsLe as bs)

/-- The method `Array.prototype.sort` without a comparator, on strings: ascending by code
units. -/
def defaultSort (xs : List String) : List String :=
  xs.insertionSort (fun a b => unitsLe (utf16 a) (utf16 b) = true)

/-- The function `getCategories` of storage.js. -/
def getCategories {σ : Type} (h : Host σ) (st : Option σ) : List String × Option σ :=
  let loaded := getSweets h st
  (defaultSort (setValues (loaded.1.map (fun s => s.category))), loaded.2)

/-! ## validateSweet on field values of any kind -/

/-- A field value: absent (`undefined`), a string or a number. -/
inductive JsVal where
  | undefined : JsVal
  | str (s : String) : JsVal
  | num (n : JsNum) : JsVal
deriving DecidableEq

/-- The operator `!` on a field value: `undefined`, the empty string, `0` and `NaN` are
falsy. -/
def JsVal.isFalsy : JsVal → Bool
  | JsVal.undefined => true
  | JsVal.str s => s == ""
  | JsVal.num n => n.isNaN || n == JsNum.fin 0

/-- The conversion `Number(·)`, which the global `isNaN` applies. -/
def JsVal.toNumber {σ : Type} (h : Host σ) : JsVal → JsNum
  | JsVal.undefined => JsNum.nan
  | JsVal.str s => h.toNumber s
  | JsVal.num n => n

/-- The conversion to a string, which `parseFloat` and `parseInt` apply. -/
def JsVal.toText {σ : Type} (h : Host σ) : JsVal → String
  | JsVal.undefined => "undefined"
  | JsVal.str s => s
  | JsVal.num n => h.numToString n

/-- The argument of `validateSweet` with fields of any kind: `name` and `category` are a
string or absent, `price` and `quantity` are a string, a number or absent. -/
structure Fields where
  name : Option String
  category : Option String
  price : JsVal
  quantity : JsVal

/-- The test `!x || x.trim() === ''` on a string that may be absent. -/
def blank : Option String → Bool
  | none => true
  | some s => s == "" || trim s == ""

/-- The function `validateSweet` on fields of any kind. -/
def validateFields {σ : Type} (h : Host σ) (sweet : Fields) : Validation :=
  let e0 : List String := []
  let e1 := if blank sweet.name then e0 ++ ["Sweet name is required"] else e0
  let e2 := if blank sweet.category then e1 ++ ["Category is required"] else e1
  let e3 := if sweet.price.isFalsy || (sweet.price.toNumber h).isNaN
      || JsNum.lt (h.parseFloat (sweet.price.toText h)) (JsNum.fin 0) then
    e2 ++ ["Valid price is required"] else e2
  let e4 := if sweet.quantity.isFalsy || (sweet.quantity.toNumber h).isNaN
      || JsNum.lt (h.parseInt (sweet.quantity.toText h)) (JsNum.fin 0) then
    e3 ++ ["Valid quantity is required"] else e3
  { isValid := decide (e4.length = 0), errors := e4 }

/-- The price rule of `validateSweet` is violated: the condition of its third `if`. -/
def rejectsPrice {σ : Type} (h : Host σ) (price : JsVal) : Bool :=
  price.isFalsy || (price.toNumber h).isNaN
    || JsNum.lt (h.parseFloat (price.toText h)) (JsNum.fin 0)

/-- The quantity rule of `validateSweet` is violated: the condition of its fourth `if`. -/
def rejectsQuantity {σ : Type} (h : Host σ) (quantity : JsVal) : Bool :=
  quantity.isFalsy || (quantity.toNumber h).isNaN
    || JsNum.lt (h.parseInt (quantity.toText h)) (JsNum.fin 0)

/-- The four strings of a form as field values. -/
def Candidate.toFields (c : Candidate) : Fields :=
  { name := some c.name, category := some c.category
    price := JsVal.str c.price, quantity := JsVal.str c.quantity }

/-- The character-wise lower case of the basic Latin letters. -/
def asciiLower (s : String) : String :=
  String.mk (s.toList.map (fun c =>
    if 65 ≤ c.toNat ∧ c.toNat ≤ 90 then Char.ofNat (c.toNat + 32) else c))

/-- An executable `Text`: lower case of the basic Latin letters, comparison by code
units. -/
def refText : Text where
  toLowerCase := asciiLower
  localeCompare := fun a b =>
    if unitsLe (utf16 a) (utf16 b) then (if unitsLe (utf16 b) (utf16 a) then 0 else -1) else 1

/-! ## Predicates of the statements on the query functions -/

/-- The text `s` contains `search`: some text before it and some text after it. -/
def Contains (s search : String) : Prop :=
  ∃ before after : List Char, s.toList = before ++ search.toList ++ after

/-- The sum of a list of numbers, from the right. -/
def sumNums : List JsNum → JsNum
  | [] => JsNum.fin 0
  | x :: xs => JsNum.add x (sumNums xs)

/-- The comparison `localeCompare` is a collation: reversing the arguments reverses the
sign, and `<= 0` is transitive. -/
def Text.Collates (t : Text) : Prop :=
  (∀ a b, t.localeCompare a b < 0 ↔ 0 < t.localeCompare b a) ∧
    ∀ a b c, t.localeCompare a b ≤ 0 → t.localeCompare b c ≤ 0 → t.localeCompare a c ≤ 0

/-- The order of two records by the sort key: numeric `<=` on `price` and `quantity`,
collation order on `name` and `category`. -/
def keyLe (t : Text) (sortBy : String) (a b : Sweet) : Prop :=
  if sortBy = "name" then t.localeCompare a.name b.name ≤ 0
  else if sortBy = "price" then JsNum.le a.price b.price = true
  else if sortBy = "quantity" then JsNum.le a.quantity b.quantity = true
  else t.localeCompare a.category b.category ≤ 0

/-- The sort key of the record is not `NaN` (the string keys never are). -/
def keyIsNumber (sortBy : String) (a : Sweet) : Prop :=
  if sortBy = "price" then a.price.isNaN = false
  else if sortBy = "quantity" then a.quantity.isNaN = false
  else True

/-! ## Lemmas on loading and saving -/

section LoadSave

variable {σ : Type}

theorem getSweets_of_holds (h : Host σ) (st : Option σ) (sweets : List Sweet)
    (hst : Holds h st sweets) : getSweets h st = (sweets, st) := by
  obtain ⟨data, rfl, hf, hp⟩ := hst
  simp [getSweets, hf, hp]

theorem holds_of_readsBack (h : Host σ) (sweets : List Sweet) (hr : ReadsBack h sweets) :
    Holds h (some (h.stringify sweets)) sweets :=
  ⟨h.stringify sweets, rfl, hr.1, hr.2⟩

theorem saveSweets_of_persists (h : Host σ) (st : Option σ) (sweets : List Sweet)
    (hp : Persists h sweets) :
    saveSweets h st sweets = (true, some (h.stringify sweets)) := by
  simp [saveSweets, hp.1]

theorem load_after_save (h : Host σ) (st : Option σ) (sweets : List Sweet)
    (hp : Persists h sweets) :
    (getSweets h (saveSweets h st sweets).2).1 = sweets := by
  rw [saveSweets_of_persists h st sweets hp]
  rw [getSweets_of_holds h _ sweets (holds_of_readsBack h sweets hp.2)]

theorem load_after_load (h : Host σ) (st : Option σ) (hr : ReadsBack h initialData) :
    (getSweets h (getSweets h st).2).1 = (getSweets h st).1 := by
  have hseed : (getSweets h (getInitialData h st).2).1 = initialData ∨
      (getInitialData h st).2 = st := by
    by_cases hacc : h.accepts (h.stringify initialData) = true
    · left
      exact load_after_save h st initialData ⟨hacc, hr⟩
    · right
      simp [getInitialData, saveSweets, hacc]
  cases st with
  | none =>
    rcases hseed with hs | hs
    · simpa [getSweets] using hs
    · have h1 : getSweets h none = getInitialData h none := rfl
      rw [h1, hs, h1]
  | some data =>
    by_cases hf : h.falsy data = true
    · have h1 : getSweets h (some data) = getInitialData h (some data) := by
        simp [getSweets, hf]
      rcases hseed with hs | hs
      · rw [h1, hs]
        rfl
      · rw [h1, hs, h1]
    · cases hp : h.parse data with
      | none =>
        have h1 : getSweets h (some data) = getInitialData h (some data) := by
          simp [getSweets, hf, hp]
        rcases hseed with hs | hs
        · rw [h1, hs]
          rfl
        · rw [h1, hs, h1]
      | some sweets =>
        have h1 : getSweets h (some data) = (sweets, some data) := by
          simp [getSweets, hf, hp]
        rw [h1, h1]

/-- The slot of a store that holds the seed dataset. -/
theorem seedSlot_holds : Holds refHost (some (Doc.json initialData)) initialData :=
  ⟨Doc.json initialData, rfl, rfl, rfl⟩

end LoadSave

/-! ## Lemmas on the array operations -/

section Arrays

theorem find_eq_none_iff (sweets : List Sweet) (id : Int) :
    sweets.find? (fun s => decide (s.id = id)) = none ↔ ∀ s ∈ sweets, s.id ≠ id := by
  simp [List.find?_eq_none]

theorem find_split (pre post : List Sweet) (s : Sweet) (hpre : ∀ t ∈ pre, t.id ≠ s.id) :
    (pre ++ s :: post).find? (fun t => decide (t.id = s.id)) = some s := by
  induction pre with
  | nil => simp
  | cons a pre ih =>
    have ha : a.id ≠ s.id := hpre a (List.mem_cons_self _ _)
    simp only [List.cons_append, List.find?_cons, ha, decide_False]
    exact ih (fun t ht => hpre t (List.mem_cons_of_mem _ ht))

theorem mutateFirst_split (f : Sweet → Sweet) (pre post : List Sweet) (s : Sweet)
    (hpre : ∀ t ∈ pre, t.id ≠ s.id) :
    mutateFirst s.id f (pre ++ s :: post) = pre ++ f s :: post := by
  induction pre with
  | nil => simp [mutateFirst]
  | cons a pre ih =>
    have ha : a.id ≠ s.id := hpre a (List.mem_cons_self _ _)
    have ih2 := ih (fun t ht => hpre t (List.mem_cons_of_mem _ ht))
    show mutateFirst s.id f (a :: (pre ++ s :: post)) = a :: (pre ++ f s :: post)
    rw [mutateFirst, if_neg ha, ih2]

theorem mutateFirst_ids (id : Int) (f : Sweet → Sweet) (hf : ∀ s, (f s).id = s.id)
    (sweets : List Sweet) :
    (mutateFirst id f sweets).map (fun s => s.id) = sweets.map (fun s => s.id) := by
  induction sweets with
  | nil => rfl
  | cons a rest ih =>
    by_cases ha : a.id = id
    · simp [mutateFirst, ha, hf]
    · simp [mutateFirst, ha, ih]

theorem mutateFirst_mem (id : Int) (f : Sweet → Sweet) (sweets : List Sweet) (t : Sweet)
    (ht : t ∈ mutateFirst id f sweets) :
    t ∈ sweets ∨ ∃ s, sweets.find? (fun u => decide (u.id = id)) = some s ∧ t = f s := by
  induction sweets with
  | nil => simp [mutateFirst] at ht
  | cons a rest ih =>
    by_cases ha : a.id = id
    · simp only [mutateFirst, ha, if_true, List.mem_cons] at ht
      rcases ht with rfl | ht
      · right
        exact ⟨a, by simp [ha], rfl⟩
      · left
        exact List.mem_cons_of_mem _ ht
    · simp only [mutateFirst, ha, if_false, List.mem_cons] at ht
      rcases ht with rfl | ht
      · left
        exact List.mem_cons_self _ _
      · rcases ih ht with hm | ⟨s, hs, rfl⟩
        · left
          exact List.mem_cons_of_mem _ hm
        · right
          exact ⟨s, by simp [ha, hs], rfl⟩

theorem foldl_max_ge (rest : List Int) (i : Int) :
    i ≤ rest.foldl max i ∧ ∀ x ∈ rest, x ≤ rest.foldl max i := by
  induction rest generalizing i with
  | nil => simp
  | cons a rest ih =>
    obtain ⟨h1, h2⟩ := ih (max i a)
    refine ⟨le_trans (le_max_left i a) h1, ?_⟩
    intro x hx
    rcases List.mem_cons.1 hx with rfl | hx
    · exact le_trans (le_max_right i x) h1
    · exact h2 x hx

theorem foldl_max_mem (rest : List Int) (i : Int) :
    rest.foldl max i = i ∨ rest.foldl max i ∈ rest := by
  induction rest generalizing i with
  | nil => simp
  | cons a rest ih =>
    rw [List.foldl_cons]
    rcases ih (max i a) with h | h
    · rw [h]
      rcases max_choice i a with hm | hm
      · left
        exact hm
      · right
        rw [hm]
        exact List.mem_cons_self _ _
    · right
      exact List.mem_cons_of_mem _ h

theorem toDouble_of_exact (n : Int) (hn : n.natAbs ≤ 2 ^ 53) : toDouble n = n := by
  unfold toDouble
  rw [if_pos hn]

theorem getNextId_cons (a : Sweet) (rest : List Sweet) (he : ExactIds 1 (a :: rest)) :
    getNextId (a :: rest) = (rest.map (fun s => s.id)).foldl max a.id + 1 := by
  have hmem : ∃ t ∈ a :: rest, (rest.map (fun s => s.id)).foldl max a.id = t.id := by
    rcases foldl_max_mem (rest.map (fun s => s.id)) a.id with hm | hm
    · exact ⟨a, List.mem_cons_self _ _, hm⟩
    · obtain ⟨t, ht, hid⟩ := List.mem_map.1 hm
      exact ⟨t, List.mem_cons_of_mem _ ht, hid.symm⟩
  obtain ⟨t, ht, hmax⟩ := hmem
  obtain ⟨hlo, hhi⟩ := he.2 t ht
  show toDouble ((rest.map (fun s => s.id)).foldl max a.id + 1) = _
  apply toDouble_of_exact
  rw [hmax]
  have h53 : (2 : Int) ^ 53 = 9007199254740992 := by norm_num
  have h53n : (2 : Nat) ^ 53 = 9007199254740992 := by norm_num
  rw [h53] at hlo hhi
  rw [h53n]
  omega

theorem getNextId_gt (sweets : List Sweet) (he : ExactIds 1 sweets) :
    ∀ t ∈ sweets, t.id < getNextId sweets := by
  cases sweets with
  | nil => simp
  | cons a rest =>
    intro t ht
    have hge := foldl_max_ge (rest.map (fun s => s.id)) a.id
    have hle : t.id ≤ (rest.map (fun s => s.id)).foldl max a.id := by
      rcases List.mem_cons.1 ht with rfl | ht
      · exact hge.1
      · exact hge.2 _ (List.mem_map_of_mem _ ht)
    rw [getNextId_cons a rest he]
    omega

theorem getNextId_pred_mem (sweets : List Sweet) (hne : sweets ≠ [])
    (he : ExactIds 1 sweets) : ∃ t ∈ sweets, getNextId sweets = t.id + 1 := by
  cases sweets with
  | nil => exact absurd rfl hne
  | cons a rest =>
    rw [getNextId_cons a rest he]
    rcases foldl_max_mem (rest.map (fun s => s.id)) a.id with hm | hm
    · exact ⟨a, List.mem_cons_self _ _, by rw [hm]⟩
    · obtain ⟨t, ht, hid⟩ := List.mem_map.1 hm
      exact ⟨t, List.mem_cons_of_mem _ ht, by rw [hid]⟩

end Arrays

/-! ## Lemmas on numbers and validation -/

section Numbers

variable {σ : Type}

theorem lt_false_of_le {a b : JsNum} (hle : JsNum.le a b = true) : JsNum.lt b a = false := by
  cases a <;> cases b <;> simp_all [JsNum.le, JsNum.lt]

theorem sub_nonneg_of_le (q : Int) (x : JsNum) (hle : JsNum.le (JsNum.ofInt q) x = true) :
    JsNum.le (JsNum.fin 0) (JsNum.sub x (JsNum.ofInt q)) = true := by
  cases x <;> simp_all [JsNum.le, JsNum.lt, JsNum.sub, JsNum.add, JsNum.neg, JsNum.ofInt]

theorem nonneg_of_not_lt (x : JsNum) (hlt : JsNum.lt x (JsNum.fin 0) = false)
    (hnan : x.isNaN = false) : JsNum.le (JsNum.fin 0) x = true := by
  cases x <;> simp_all [JsNum.le, JsNum.lt, JsNum.isNaN]

theorem validate_accepts (h : Host σ) (sweet : Candidate)
    (hv : (validateSweet h sweet).isValid = true) :
    JsNum.lt (h.parseFloat sweet.price) (JsNum.fin 0) = false ∧
      JsNum.lt (h.parseInt sweet.quantity) (JsNum.fin 0) = false := by
  unfold validateSweet at hv
  simp only [decide_eq_true_eq] at hv
  constructor
  · by_contra hc
    have hc2 : JsNum.lt (h.parseFloat sweet.price) (JsNum.fin 0) = true := by simpa using hc
    split_ifs at hv <;> simp_all
  · by_contra hc
    have hc2 : JsNum.lt (h.parseInt sweet.quantity) (JsNum.fin 0) = true := by simpa using hc
    split_ifs at hv <;> simp_all

end Numbers

/-! ## Lemmas on call sequences -/

section Sequences

variable {σ : Type}

theorem exec_slot (h : Host σ) (st : Option σ) (op : Op) :
    op.exec h st = (getSweets h st).2 ∨
      op.exec h st = (saveSweets h (getSweets h st).2 (op.effect h (getSweets h st).1)).2 := by
  cases op with
  | add sweet =>
    simp only [Op.exec, Op.effect, addSweet]
    by_cases hthrow : spreadThrows h (getSweets h st).1 = true
    · left
      simp [hthrow]
    · right
      simp [hthrow]
  | delete id => right; rfl
  | purchase id q =>
    simp only [Op.exec, Op.effect, purchaseSweet]
    cases hfind : (getSweets h st).1.find? (fun s => decide (s.id = id)) with
    | none => left; rfl
    | some s =>
      by_cases hlt : JsNum.lt s.quantity (JsNum.ofInt q) = true
      · left
        simp [hlt]
      · right
        simp [hlt]
  | restock id q =>
    simp only [Op.exec, Op.effect, restockSweet]
    cases hfind : (getSweets h st).1.find? (fun s => decide (s.id = id)) with
    | none => left; rfl
    | some s => right; rfl

theorem keeps_load_after_save (h : Host σ) (P : List Sweet → Prop) (hk : Keeps h P)
    (st : Option σ) (sweets : List Sweet) (hP : P sweets) :
    P (getSweets h (saveSweets h st sweets).2).1 ∨ (saveSweets h st sweets).2 = st := by
  by_cases hacc : h.accepts (h.stringify sweets) = true
  · left
    obtain ⟨hfalsy, back, hback, hPb⟩ := hk sweets hP
    have hload : getSweets h (some (h.stringify sweets)) = (back, some (h.stringify sweets)) :=
      getSweets_of_holds h _ back ⟨_, rfl, hfalsy, hback⟩
    simp only [saveSweets, hacc, if_true, hload]
    exact hPb
  · right
    simp [saveSweets, hacc]

theorem keeps_load_after_load (h : Host σ) (P : List Sweet → Prop) (hk : Keeps h P)
    (st : Option σ) (hP : P (getSweets h st).1) : P (getSweets h (getSweets h st).2).1 := by
  have hseed : getSweets h st = getInitialData h st →
      P (getSweets h (getSweets h st).2).1 := by
    intro h1
    have hPs : P initialData := by
      rw [h1] at hP
      exact hP
    rcases keeps_load_after_save h P hk st initialData hPs with hs | hs
    · rw [h1]
      exact hs
    · have h2 : (getSweets h st).2 = st := by
        rw [h1]
        exact hs
      rw [h2]
      exact hP
  cases st with
  | none => exact hseed rfl
  | some data =>
    by_cases hf : h.falsy data = true
    · exact hseed (by simp [getSweets, hf])
    · cases hp : h.parse data with
      | none => exact hseed (by simp [getSweets, hf, hp])
      | some sweets =>
        have h1 : getSweets h (some data) = (sweets, some data) := by
          simp [getSweets, hf, hp]
        rw [h1] at hP ⊢
        rw [h1]
        exact hP

theorem exec_keeps (h : Host σ) (P : List Sweet → Prop) (hk : Keeps h P) (st : Option σ)
    (op : Op) (hP : P (getSweets h st).1) (hstep : P (op.effect h (getSweets h st).1)) :
    P (getSweets h (op.exec h st)).1 := by
  have hidem := keeps_load_after_load h P hk st hP
  rcases exec_slot h st op with hs | hs
  · rw [hs]
    exact hidem
  · rcases keeps_load_after_save h P hk (getSweets h st).2 _ hstep with hl | hl
    · rw [hs]
      exact hl
    · rw [hs, hl]
      exact hidem

theorem run_preserves (h : Host σ) (P : List Sweet → Prop) (Q : Op → Prop) (hk : Keeps h P)
    (hstep : ∀ sweets op, P sweets → Q op → P (op.effect h sweets))
    (ops : List Op) (st : Option σ) (h0 : P (getSweets h st).1) (hops : ∀ op ∈ ops, Q op) :
    P (getSweets h (run h st ops)).1 := by
  induction ops generalizing st with
  | nil => exact h0
  | cons op ops ih =>
    exact ih (op.exec h st)
      (exec_keeps h P hk st op h0 (hstep _ op h0 (hops op (List.mem_cons_self _ _))))
      (fun o ho => hops o (List.mem_cons_of_mem _ ho))

theorem effect_ids_unchanged (h : Host σ) (sweets : List Sweet) (op : Op)
    (hop : ∀ sweet, op ≠ Op.add sweet) :
    List.Sublist ((op.effect h sweets).map (fun s => s.id)) (sweets.map (fun s => s.id)) := by
  cases op with
  | add sweet => exact absurd rfl (hop sweet)
  | delete id => exact List.Sublist.map _ (List.filter_sublist _)
  | purchase id q =>
    simp only [Op.effect]
    cases hfind : sweets.find? (fun s => decide (s.id = id)) with
    | none => exact List.Sublist.refl _
    | some s =>
      by_cases hlt : JsNum.lt s.quantity (JsNum.ofInt q) = true
      · simp [hlt]
      · show List.Sublist (List.map (fun s => s.id)
          (if JsNum.lt s.quantity (JsNum.ofInt q) = true then sweets
           else mutateFirst id
            (fun t => { t with quantity := JsNum.sub t.quantity (JsNum.ofInt q) }) sweets)) _
        rw [if_neg hlt, mutateFirst_ids id
          (fun t => { t with quantity := JsNum.sub t.quantity (JsNum.ofInt q) })
          (fun _ => rfl) sweets]
  | restock id q =>
    simp only [Op.effect]
    cases hfind : sweets.find? (fun s => decide (s.id = id)) with
    | none => exact List.Sublist.refl _
    | some s =>
      show List.Sublist (List.map (fun s => s.id) (mutateFirst id
        (fun t => { t with quantity := JsNum.add t.quantity (JsNum.ofInt q) }) sweets)) _
      rw [mutateFirst_ids id
        (fun t => { t with quantity := JsNum.add t.quantity (JsNum.ofInt q) })
        (fun _ => rfl) sweets]

theorem exactIds_mono (k : Nat) (sweets : List Sweet) (he : ExactIds (k + 1) sweets) :
    ExactIds k sweets := by
  obtain ⟨h0, hall⟩ := he
  push_cast at h0
  refine ⟨by omega, fun s hs => ?_⟩
  obtain ⟨h1, h2⟩ := hall s hs
  refine ⟨h1, ?_⟩
  push_cast at h2
  omega

theorem exactIds_one (k : Nat) (sweets : List Sweet) (he : ExactIds (k + 1) sweets) :
    ExactIds 1 sweets := by
  obtain ⟨h0, hall⟩ := he
  push_cast at h0
  refine ⟨by omega, fun s hs => ?_⟩
  obtain ⟨h1, h2⟩ := hall s hs
  refine ⟨h1, ?_⟩
  push_cast at h2 ⊢
  omega

theorem exactIds_of_ids_sublist (k : Nat) (small large : List Sweet)
    (hsub : List.Sublist (small.map (fun s => s.id)) (large.map (fun s => s.id)))
    (he : ExactIds k large) : ExactIds k small := by
  refine ⟨he.1, fun s hs => ?_⟩
  have hmem : s.id ∈ large.map (fun s => s.id) := hsub.subset (List.mem_map_of_mem _ hs)
  obtain ⟨t, ht, hid⟩ := List.mem_map.1 hmem
  have hb := he.2 t ht
  rw [hid] at hb
  exact hb

theorem effect_distinct_exact (h : Host σ) (sweets : List Sweet) (op : Op) (k : Nat)
    (hd : DistinctIds sweets) (he : ExactIds (k + addCalls [op]) sweets) :
    DistinctIds (op.effect h sweets) ∧ ExactIds k (op.effect h sweets) := by
  by_cases hadd : ∃ sweet, op = Op.add sweet
  · obtain ⟨sweet, rfl⟩ := hadd
    have he1 : ExactIds (k + 1) sweets := he
    simp only [Op.effect]
    by_cases hthrow : spreadThrows h sweets = true
    · rw [if_pos hthrow]
      exact ⟨hd, exactIds_mono k sweets he1⟩
    · rw [if_neg hthrow]
      have hgt := getNextId_gt sweets (exactIds_one k sweets he1)
      have hnew : (newSweet h sweets sweet).id = getNextId sweets := rfl
      constructor
      · unfold DistinctIds at hd ⊢
        simp only [List.map_append, List.map_cons, List.map_nil]
        refine List.Nodup.append hd (List.nodup_singleton _) ?_
        intro x hx hx2
        obtain ⟨t, ht, rfl⟩ := List.mem_map.1 hx
        have hlt := hgt t ht
        have heq : t.id = (newSweet h sweets sweet).id := by simpa using hx2
        omega
      · refine ⟨(exactIds_mono k sweets he1).1, fun s hs => ?_⟩
        rcases List.mem_append.1 hs with hs | hs
        · exact (exactIds_mono k sweets he1).2 s hs
        · have hs2 : s = newSweet h sweets sweet := by simpa using hs
          rw [hs2, hnew]
          cases sweets with
          | nil =>
            have h0 := he1.1
            push_cast at h0
            show -(2 ^ 53 : Int) ≤ 1001 ∧ (1001 : Int) + (k : Int) ≤ 2 ^ 53
            constructor
            · norm_num
            · omega
          | cons a rest =>
            obtain ⟨t, ht, hid⟩ := getNextId_pred_mem (a :: rest) (List.cons_ne_nil _ _)
              (exactIds_one k _ he1)
            rw [hid]
            obtain ⟨h1, h2⟩ := he1.2 t ht
            push_cast at h2
            constructor <;> omega
  · have hop : ∀ sweet, op ≠ Op.add sweet := fun sweet hc => hadd ⟨sweet, hc⟩
    have hzero : addCalls [op] = 0 := by
      cases op with
      | add sweet => exact absurd rfl (hop sweet)
      | delete id => rfl
      | purchase id q => rfl
      | restock id q => rfl
    rw [hzero, Nat.add_zero] at he
    have hsub := effect_ids_unchanged h sweets op hop
    exact ⟨hd.sublist hsub, exactIds_of_ids_sublist k _ _ hsub he⟩

theorem effect_nonneg (h : Host σ) (sweets : List Sweet) (op : Op)
    (hn : NonNegative sweets) (hg : op.Guarded h) : NonNegative (op.effect h sweets) := by
  cases op with
  | add sweet =>
    obtain ⟨hv, hp, hq⟩ := hg
    obtain ⟨hv1, hv2⟩ := validate_accepts h sweet hv
    simp only [Op.effect]
    by_cases hthrow : spreadThrows h sweets = true
    · rw [if_pos hthrow]
      exact hn
    · rw [if_neg hthrow]
      intro t ht
      simp only [List.mem_append, List.mem_singleton] at ht
      rcases ht with ht | rfl
      · exact hn t ht
      · exact ⟨nonneg_of_not_lt _ hv1 hp, nonneg_of_not_lt _ hv2 hq⟩
  | delete id =>
    intro t ht
    exact hn t (List.mem_of_mem_filter ht)
  | purchase id q =>
    simp only [Op.effect]
    cases hfind : sweets.find? (fun s => decide (s.id = id)) with
    | none => exact hn
    | some s =>
      by_cases hlt : JsNum.lt s.quantity (JsNum.ofInt q) = true
      · simpa [hlt] using hn
      · show NonNegative (if JsNum.lt s.quantity (JsNum.ofInt q) = true then sweets
          else mutateFirst id
            (fun t => { t with quantity := JsNum.sub t.quantity (JsNum.ofInt q) }) sweets)
        rw [if_neg hlt]
        intro t ht
        rcases mutateFirst_mem id _ sweets t ht with hm | ⟨u, hu, rfl⟩
        · exact hn t hm
        · rw [hfind] at hu
          cases hu
          have hs := hn s (List.mem_of_find?_eq_some hfind)
          refine ⟨hs.1, ?_⟩
          have hq := hs.2
          revert hlt hq
          cases s.quantity <;> simp [JsNum.le, JsNum.lt, JsNum.sub, JsNum.add, JsNum.neg,
            JsNum.ofInt]
          intro hle _
          exact hle
  | restock id q =>
    have hq0 : (0 : Int) ≤ q := hg
    simp only [Op.effect]
    cases hfind : sweets.find? (fun s => decide (s.id = id)) with
    | none => exact hn
    | some s =>
      show NonNegative (mutateFirst id
        (fun t => { t with quantity := JsNum.add t.quantity (JsNum.ofInt q) }) sweets)
      intro t ht
      rcases mutateFirst_mem id _ sweets t ht with hm | ⟨u, hu, rfl⟩
      · exact hn t hm
      · rw [hfind] at hu
        cases hu
        have hs := hn s (List.mem_of_find?_eq_some hfind)
        refine ⟨hs.1, ?_⟩
        have hq := hs.2
        have hqr : (0 : Rat) ≤ (q : Rat) := by exact_mod_cast hq0
        revert hq
        cases s.quantity <;> simp [JsNum.le, JsNum.add, JsNum.ofInt]
        intro hv
        linarith

theorem exactIds_le (k m : Nat) (hkm : k ≤ m) (sweets : List Sweet)
    (he : ExactIds m sweets) : ExactIds k sweets := by
  obtain ⟨h0, hall⟩ := he
  have hc : (k : Int) ≤ (m : Int) := by exact_mod_cast hkm
  refine ⟨by omega, fun s hs => ?_⟩
  obtain ⟨h1, h2⟩ := hall s hs
  exact ⟨h1, by omega⟩

theorem keepsIds_keeps (h : Host σ) (hk : KeepsIds h) (k : Nat) :
    Keeps h (fun sweets => DistinctIds sweets ∧ ExactIds k sweets) := by
  intro sweets hP
  obtain ⟨hfalsy, back, hback, hids⟩ := hk sweets
  refine ⟨hfalsy, back, hback, ?_, ?_⟩
  · unfold DistinctIds
    rw [hids]
    exact hP.1
  · exact exactIds_of_ids_sublist k back sweets (by rw [hids]) hP.2

theorem addCalls_cons (op : Op) (ops : List Op) :
    addCalls (op :: ops) = addCalls ops + addCalls [op] := by
  cases op <;> simp [addCalls, List.countP_cons]

theorem run_keeps_ids (h : Host σ) (hk : KeepsIds h) (ops : List Op) (st : Option σ)
    (hd : DistinctIds (getSweets h st).1) (he : ExactIds (addCalls ops) (getSweets h st).1) :
    DistinctIds (getSweets h (run h st ops)).1 ∧ ExactIds 0 (getSweets h (run h st ops)).1 := by
  induction ops generalizing st with
  | nil => exact ⟨hd, he⟩
  | cons op ops ih =>
    rw [addCalls_cons] at he
    have hstep := effect_distinct_exact h (getSweets h st).1 op (addCalls ops) hd he
    have hnow : DistinctIds (getSweets h st).1 ∧ ExactIds (addCalls ops) (getSweets h st).1 :=
      ⟨hd, exactIds_le _ _ (Nat.le_add_right _ _) _ he⟩
    have hnext := exec_keeps h (fun sweets => DistinctIds sweets ∧ ExactIds (addCalls ops) sweets)
      (keepsIds_keeps h hk (addCalls ops)) st op hnow hstep
    exact ih (op.exec h st) hnext.1 hnext.2

theorem jsonNumber_nonneg (x : JsNum) (hx : JsNum.le (JsNum.fin 0) x = true) :
    JsNum.le (JsNum.fin 0) (jsonNumber x) = true := by
  cases x <;> simp_all [JsNum.le, jsonNumber]

theorem refHost_keepsIds : KeepsIds refHost := by
  intro sweets
  refine ⟨rfl, sweets.map jsonRecord, rfl, ?_⟩
  simp [jsonRecord]

theorem manySweets_spreadThrows : spreadThrows refHost manySweets = true := by
  have hlen : manySweets.length = 65536 := by
    unfold manySweets
    rw [List.length_map, List.length_range]
  have hne : manySweets.isEmpty = false := by
    cases hm : manySweets with
    | nil =>
      rw [hm] at hlen
      cases hlen
    | cons s rest => rfl
  unfold spreadThrows
  rw [hne, hlen]
  decide

theorem refHost_keeps_nonNegative : Keeps refHost NonNegative := by
  intro sweets hn
  refine ⟨rfl, sweets.map jsonRecord, rfl, ?_⟩
  intro s hs
  obtain ⟨t, ht, rfl⟩ := List.mem_map.1 hs
  exact ⟨jsonNumber_nonneg _ (hn t ht).1, jsonNumber_nonneg _ (hn t ht).2⟩

end Sequences

/-! ## The claims -/

/-- C1: on a store holding a collection, `purchaseSweet` reports failure exactly when no
record has the id or the record found has less than the requested quantity, with the
messages `Sweet not found` and `Insufficient stock! Only N available`, `N` being the
quantity of the record found; a failed purchase leaves the slot, and so the collection a
following load returns, as it was. -/
theorem purchase_fails_exactly_when {σ : Type} (h : Host σ) (st : Option σ)
    (sweets : List Sweet) (hst : Holds h st sweets) (id : Int) (q : Int) :
    ((purchaseSweet h st id q).1.success = false ↔
      ((∀ s ∈ sweets, s.id ≠ id) ∨
        ∃ s, sweets.find? (fun t => decide (t.id = id)) = some s ∧
          JsNum.lt s.quantity (JsNum.ofInt q) = true)) ∧
    ((∀ s ∈ sweets, s.id ≠ id) →
      (purchaseSweet h st id q).1 = { success := false, message := "Sweet not found" }) ∧
    (∀ s, sweets.find? (fun t => decide (t.id = id)) = some s →
      JsNum.lt s.quantity (JsNum.ofInt q) = true →
      (purchaseSweet h st id q).1 =
        { success := false
          message := "Insufficient stock! Only " ++ h.numToString s.quantity
            ++ " available" }) ∧
    ((purchaseSweet h st id q).1.success = false →
      (purchaseSweet h st id q).2 = st ∧
        (getSweets h (purchaseSweet h st id q).2).1 = sweets) := by
  have hload := getSweets_of_holds h st sweets hst
  cases hfind : sweets.find? (fun t => decide (t.id = id)) with
  | none =>
    have hnone := (find_eq_none_iff sweets id).1 hfind
    have hres : purchaseSweet h st id q =
        ({ success := false, message := "Sweet not found" }, st) := by
      simp [purchaseSweet, hload, hfind]
    rw [hres]
    refine ⟨⟨fun _ => Or.inl hnone, fun _ => rfl⟩, fun _ => rfl, ?_, fun _ => ⟨rfl, ?_⟩⟩
    · intro s hs
      cases hs
    · simp [hload]
  | some s =>
    have hsome : ¬ ∀ t ∈ sweets, t.id ≠ id := by
      intro hall
      rw [(find_eq_none_iff sweets id).2 hall] at hfind
      cases hfind
    by_cases hlt : JsNum.lt s.quantity (JsNum.ofInt q) = true
    · have hres : purchaseSweet h st id q =
          ({ success := false
             message := "Insufficient stock! Only " ++ h.numToString s.quantity
               ++ " available" }, st) := by
        simp [purchaseSweet, hload, hfind, hlt]
      rw [hres]
      refine ⟨⟨fun _ => Or.inr ⟨s, rfl, hlt⟩, fun _ => rfl⟩, fun hall => absurd hall hsome,
        ?_, fun _ => ⟨rfl, ?_⟩⟩
      · intro t ht _
        cases ht
        rfl
      · simp [hload]
    · have hres : (purchaseSweet h st id q).1.success = true := by
        simp [purchaseSweet, hload, hfind, hlt]
      refine ⟨⟨fun hf => ?_, fun hor => ?_⟩, fun hall => absurd hall hsome, ?_, fun hf => ?_⟩
      · rw [hres] at hf
        cases hf
      · rcases hor with hall | ⟨t, ht, htlt⟩
        · exact absurd hall hsome
        · cases ht
          exact absurd htlt hlt
      · intro t ht htlt
        cases ht
        exact absurd htlt hlt
      · rw [hres] at hf
        cases hf

/-- Witness of C1 on the seed dataset: asking for 25 of record 1001, which has 20. -/
theorem purchase_fails_exactly_when_witness :
    Holds refHost (some (Doc.json initialData)) initialData ∧
      (purchaseSweet refHost (some (Doc.json initialData)) 1001 25).1 =
        { success := false, message := "Insufficient stock! Only 20 available" } :=
  ⟨seedSlot_holds,
    (purchase_fails_exactly_when refHost (some (Doc.json initialData)) initialData
      seedSlot_holds 1001 25).2.2.1
      { id := 1001, name := "Kaju Katli", category := "Nut-Based",
        price := JsNum.fin 50, quantity := JsNum.fin 20 } (by decide) (by decide)⟩

/-- C2, counterexample: on a medium that rejects every write, with the seed dataset in the
slot, `purchaseSweet(1002, 5)` returns success, yet the collection afterwards is the seed
dataset itself: record 1002 still has the quantity 15, not 10. -/
theorem purchase_lost_on_rejected_write :
    (purchaseSweet fullHost (some (Doc.json initialData)) 1002 5).1.success = true ∧
    (getSweets fullHost (purchaseSweet fullHost (some (Doc.json initialData)) 1002 5).2).1 =
      [ { id := 1001, name := "Kaju Katli", category := "Nut-Based",
          price := JsNum.fin 50, quantity := JsNum.fin 20 },
        { id := 1002, name := "Gajar Halwa", category := "Vegetable-Based",
          price := JsNum.fin 30, quantity := JsNum.fin 15 },
        { id := 1003, name := "Gulab Jamun", category := "Milk-Based",
          price := JsNum.fin 10, quantity := JsNum.fin 50 } ] := by
  decide

/-- C2, as amended: on a store holding a collection in which the first record with the id
has the quantity `v`, for a request `q` not above `v`, when the medium stores the updated
collection, `purchaseSweet` returns success, the new quantity `v - q` is not below zero,
and the collection afterwards is the old one with only that record's quantity replaced by
`v - q`: its id, name, category and price, every other record and the order are as
before. -/
theorem purchase_decrements {σ : Type} (h : Host σ) (st : Option σ)
    (pre post : List Sweet) (s : Sweet) (q : Int) (v : Rat)
    (hst : Holds h st (pre ++ s :: post))
    (hpre : ∀ t ∈ pre, t.id ≠ s.id)
    (hv : s.quantity = JsNum.fin v)
    (hq : (q : Rat) ≤ v)
    (hp : Persists h (pre ++ { s with quantity := JsNum.fin (v - q) } :: post)) :
    (purchaseSweet h st s.id q).1 =
      { success := true
        message := "Purchased " ++ h.numToString (JsNum.fin q) ++ " " ++ s.name ++ "(s)" } ∧
    0 ≤ v - q ∧
    (getSweets h (purchaseSweet h st s.id q).2).1 =
      pre ++ { id := s.id, name := s.name, category := s.category, price := s.price,
               quantity := JsNum.fin (v - q) } :: post := by
  have hload := getSweets_of_holds h st _ hst
  have hfind := find_split pre post s hpre
  have hlt : JsNum.lt s.quantity (JsNum.ofInt q) = false := by
    rw [hv]
    simp [JsNum.lt, JsNum.ofInt, hq]
  have hsub : JsNum.sub s.quantity (JsNum.ofInt q) = JsNum.fin (v - q) := by
    rw [hv]
    simp [JsNum.sub, JsNum.add, JsNum.neg, JsNum.ofInt, sub_eq_add_neg]
  have hmut := mutateFirst_split
    (fun t => { t with quantity := JsNum.sub t.quantity (JsNum.ofInt q) }) pre post s hpre
  simp only [hsub] at hmut
  refine ⟨?_, by linarith, ?_⟩
  · have hres : (purchaseSweet h st s.id q).1 =
        { success := true
          message := "Purchased " ++ h.numToString (JsNum.ofInt q) ++ " " ++ s.name
            ++ "(s)" } := by
      simp [purchaseSweet, hload, hfind, hlt]
    exact hres
  · have hst2 : (purchaseSweet h st s.id q).2 =
        (saveSweets h st (pre ++ { s with quantity := JsNum.fin (v - q) } :: post)).2 := by
      simp [purchaseSweet, hload, hfind, hlt, hmut]
    rw [hst2]
    exact load_after_save h st _ hp

/-- Witness of C2 on the seed dataset: buying 5 of record 1002, which has 15, leaves 10. -/
theorem purchase_decrements_witness :
    Holds refHost (some (Doc.json initialData)) initialData ∧
    (purchaseSweet refHost (some (Doc.json initialData)) 1002 5).1 =
      { success := true, message := "Purchased 5 Gajar Halwa(s)" } ∧
    (getSweets refHost (purchaseSweet refHost (some (Doc.json initialData)) 1002 5).2).1 =
      [ { id := 1001, name := "Kaju Katli", category := "Nut-Based",
          price := JsNum.fin 50, quantity := JsNum.fin 20 },
        { id := 1002, name := "Gajar Halwa", category := "Vegetable-Based",
          price := JsNum.fin 30, quantity := JsNum.fin 10 },
        { id := 1003, name := "Gulab Jamun", category := "Milk-Based",
          price := JsNum.fin 10, quantity := JsNum.fin 50 } ] := by
  have hthm := purchase_decrements refHost (some (Doc.json initialData))
    [ { id := 1001, name := "Kaju Katli", category := "Nut-Based",
        price := JsNum.fin 50, quantity := JsNum.fin 20 } ]
    [ { id := 1003, name := "Gulab Jamun", category := "Milk-Based",
        price := JsNum.fin 10, quantity := JsNum.fin 50 } ]
    { id := 1002, name := "Gajar Halwa", category := "Vegetable-Based",
      price := JsNum.fin 30, quantity := JsNum.fin 15 } 5 15
    seedSlot_holds (by decide) rfl (by norm_num) ⟨rfl, rfl, rfl⟩
  refine ⟨seedSlot_holds, ?_, ?_⟩
  · rw [hthm.1]
    decide
  · rw [hthm.2.2]
    norm_num

/-- C3, counterexample: on a medium that rejects every write, with the seed dataset in the
slot, `restockSweet(1003, 7)` returns success, yet the collection afterwards is the seed
dataset itself: record 1003 still has the quantity 50, not 57. -/
theorem restock_lost_on_rejected_write :
    (restockSweet fullHost (some (Doc.json initialData)) 1003 7).1.success = true ∧
    (getSweets fullHost (restockSweet fullHost (some (Doc.json initialData)) 1003 7).2).1 =
      [ { id := 1001, name := "Kaju Katli", category := "Nut-Based",
          price := JsNum.fin 50, quantity := JsNum.fin 20 },
        { id := 1002, name := "Gajar Halwa", category := "Vegetable-Based",
          price := JsNum.fin 30, quantity := JsNum.fin 15 },
        { id := 1003, name := "Gulab Jamun", category := "Milk-Based",
          price := JsNum.fin 10, quantity := JsNum.fin 50 } ] := by
  decide

/-- C3, as amended: on a store holding a collection, when the first record with the id has
the quantity `v` and the medium stores the updated collection, `restockSweet` returns
success for every request `q`, also zero and negative ones, and the collection afterwards
is the old one with only that record's quantity replaced by `v + q`: its other fields,
every other record and the order are as before.  When no record has the id it returns the
failure `Sweet not found` and the store is untouched. -/
theorem restock_increments {σ : Type} (h : Host σ) (st : Option σ)
    (sweets : List Sweet) (hst : Holds h st sweets) (id : Int) (q : Int) :
    (∀ pre s post v, sweets = pre ++ s :: post → s.id = id → (∀ t ∈ pre, t.id ≠ id) →
      s.quantity = JsNum.fin v →
      Persists h (pre ++ { s with quantity := JsNum.fin (v + q) } :: post) →
      (restockSweet h st id q).1 =
        { success := true, message := "Stock updated successfully!" } ∧
      (getSweets h (restockSweet h st id q).2).1 =
        pre ++ { id := s.id, name := s.name, category := s.category, price := s.price,
                 quantity := JsNum.fin (v + q) } :: post) ∧
    ((∀ s ∈ sweets, s.id ≠ id) →
      (restockSweet h st id q).1 = { success := false, message := "Sweet not found" } ∧
      (restockSweet h st id q).2 = st ∧
      (getSweets h (restockSweet h st id q).2).1 = sweets) := by
  have hload := getSweets_of_holds h st sweets hst
  refine ⟨?_, ?_⟩
  · intro pre s post v hsplit hid hpre hv hp
    subst hsplit
    subst hid
    have hfind := find_split pre post s hpre
    have hadd : JsNum.add s.quantity (JsNum.ofInt q) = JsNum.fin (v + q) := by
      rw [hv]
      simp [JsNum.add, JsNum.ofInt]
    have hmut := mutateFirst_split
      (fun t => { t with quantity := JsNum.add t.quantity (JsNum.ofInt q) }) pre post s hpre
    simp only [hadd] at hmut
    refine ⟨by simp [restockSweet, hload, hfind], ?_⟩
    have hst2 : (restockSweet h st s.id q).2 =
        (saveSweets h st (pre ++ { s with quantity := JsNum.fin (v + q) } :: post)).2 := by
      simp [restockSweet, hload, hfind, hmut]
    rw [hst2]
    exact load_after_save h st _ hp
  · intro hall
    have hfind := (find_eq_none_iff sweets id).2 hall
    have hres : restockSweet h st id q =
        ({ success := false, message := "Sweet not found" }, st) := by
      simp [restockSweet, hload, hfind]
    rw [hres]
    exact ⟨rfl, rfl, by simp [hload]⟩

/-- Witness of C3 on the seed dataset: restocking record 1003, which has 50, by 7 leaves
57. -/
theorem restock_increments_witness :
    Holds refHost (some (Doc.json initialData)) initialData ∧
    (restockSweet refHost (some (Doc.json initialData)) 1003 7).1 =
      { success := true, message := "Stock updated successfully!" } ∧
    (getSweets refHost (restockSweet refHost (some (Doc.json initialData)) 1003 7).2).1 =
      [ { id := 1001, name := "Kaju Katli", category := "Nut-Based",
          price := JsNum.fin 50, quantity := JsNum.fin 20 },
        { id := 1002, name := "Gajar Halwa", category := "Vegetable-Based",
          price := JsNum.fin 30, quantity := JsNum.fin 15 },
        { id := 1003, name := "Gulab Jamun", category := "Milk-Based",
          price := JsNum.fin 10, quantity := JsNum.fin 57 } ] := by
  have hthm := (restock_increments refHost (some (Doc.json initialData)) initialData
    seedSlot_holds 1003 7).1
    [ { id := 1001, name := "Kaju Katli", category := "Nut-Based",
        price := JsNum.fin 50, quantity := JsNum.fin 20 },
      { id := 1002, name := "Gajar Halwa", category := "Vegetable-Based",
        price := JsNum.fin 30, quantity := JsNum.fin 15 } ]
    { id := 1003, name := "Gulab Jamun", category := "Milk-Based",
      price := JsNum.fin 10, quantity := JsNum.fin 50 } [] 50
    rfl rfl (by decide) rfl ⟨rfl, rfl, rfl⟩
  refine ⟨seedSlot_holds, hthm.1, ?_⟩
  rw [hthm.2]
  norm_num

/-- C4, counterexample: four calls in which `addSweet` does not append a record with the
next id.  With the 65536 records of `manySweets` in the slot, the spread call of `getNextId`
throws and `addSweet` returns `null`, leaving the slot as it was.  With the one record of id
`2 ^ 53` in the slot, the record returned has the id `2 ^ 53` again, not one more.  On a
medium that rejects every write, with the seed dataset in the slot, the record 1004 is
returned and the collection afterwards is the seed dataset without it.  And for the
candidate whose quantity text is one space the record returned has the quantity `NaN`,
which JSON does not write: the collection afterwards is not the seed dataset followed by
the record returned. -/
theorem add_without_next_id_appended :
    (addSweet refHost (some (Doc.json manySweets))
      { name := "Barfi", category := "Milk-Based", price := "12", quantity := "8" })
        = (none, some (Doc.json manySweets)) ∧
    (addSweet refHost (some (Doc.json topIdData))
      { name := "Barfi", category := "Milk-Based", price := "12", quantity := "8" }).1
        = some { id := 2 ^ 53, name := "Barfi", category := "Milk-Based",
                 price := JsNum.fin 12, quantity := JsNum.fin 8 } ∧
    (addSweet fullHost (some (Doc.json initialData))
      { name := "Barfi", category := "Milk-Based", price := "12", quantity := "8" }).1
        = some { id := 1004, name := "Barfi", category := "Milk-Based",
                 price := JsNum.fin 12, quantity := JsNum.fin 8 } ∧
    (getSweets fullHost (addSweet fullHost (some (Doc.json initialData))
      { name := "Barfi", category := "Milk-Based", price := "12", quantity := "8" }).2).1
        = initialData ∧
    (addSweet refHost (some (Doc.json initialData))
      { name := "Barfi", category := "Milk-Based", price := "12", quantity := " " }).1
        = some { id := 1004, name := "Barfi", category := "Milk-Based",
                 price := JsNum.fin 12, quantity := JsNum.nan } ∧
    (getSweets refHost (addSweet refHost (some (Doc.json initialData))
      { name := "Barfi", category := "Milk-Based", price := "12", quantity := " " }).2).1
        ≠ initialData ++ [ { id := 1004, name := "Barfi", category := "Milk-Based",
                             price := JsNum.fin 12, quantity := JsNum.nan } ] := by
  refine ⟨?_, by decide, by decide, by decide, by decide, by decide⟩
  have hload : getSweets refHost (some (Doc.json manySweets)) =
      (manySweets, some (Doc.json manySweets)) := rfl
  simp [addSweet, hload, manySweets_spreadThrows]

/-- C4, as amended: on a store holding a collection.  When the spread call of `getNextId`
does not throw, the ids lie where adding one is exact (from `-2 ^ 53` to below
`2 ^ 53`) and the medium stores the extended collection, `addSweet` returns a record
whose id is 1001 when the collection is empty and otherwise one plus the largest id
present, whose name and category are the candidate's and whose price and quantity are its
parsed texts, and the collection afterwards is the old one, unchanged and in the same
order, followed by that record.  When the spread call throws, `addSweet` returns `null` and
the store is untouched. -/
theorem add_appends_with_next_id {σ : Type} (h : Host σ) (st : Option σ)
    (sweets : List Sweet) (hst : Holds h st sweets) (sweet : Candidate) :
    (spreadThrows h sweets = false → ExactIds 1 sweets →
      Persists h (sweets ++ [newSweet h sweets sweet]) →
      ∃ r, (addSweet h st sweet).1 = some r ∧
        (sweets = [] → r.id = 1001) ∧
        (sweets ≠ [] → (∃ t ∈ sweets, r.id = t.id + 1) ∧ ∀ t ∈ sweets, t.id < r.id) ∧
        r.name = sweet.name ∧ r.category = sweet.category ∧
        r.price = h.parseFloat sweet.price ∧ r.quantity = h.parseInt sweet.quantity ∧
        (getSweets h (addSweet h st sweet).2).1 = sweets ++ [r]) ∧
    (spreadThrows h sweets = true →
      (addSweet h st sweet).1 = none ∧ (addSweet h st sweet).2 = st ∧
      (getSweets h (addSweet h st sweet).2).1 = sweets) := by
  have hload := getSweets_of_holds h st sweets hst
  refine ⟨fun hthrow he hp => ?_, fun hthrow => ?_⟩
  · refine ⟨newSweet h sweets sweet, by simp [addSweet, hload, hthrow], ?_, ?_,
      rfl, rfl, rfl, rfl, ?_⟩
    · intro hnil
      subst hnil
      rfl
    · intro hne
      exact ⟨getNextId_pred_mem sweets hne he, getNextId_gt sweets he⟩
    · have hst2 : (addSweet h st sweet).2 =
          (saveSweets h st (sweets ++ [newSweet h sweets sweet])).2 := by
        simp [addSweet, hload, hthrow]
      rw [hst2]
      exact load_after_save h st _ hp
  · have hres : addSweet h st sweet = (none, st) := by
      simp [addSweet, hload, hthrow]
    rw [hres]
    exact ⟨rfl, rfl, by simp [hload]⟩

/-- Witness of C4.  On the seed dataset the record added is one above a record present and
above all three, and is the last of the four records afterwards; on the 65536 records of
`manySweets` the call returns `null` and the slot is as before. -/
theorem add_appends_with_next_id_witness :
    (Holds refHost (some (Doc.json initialData)) initialData ∧
      spreadThrows refHost initialData = false ∧
      ExactIds 1 initialData ∧
      ∃ r, (addSweet refHost (some (Doc.json initialData))
          { name := "Barfi", category := "Milk-Based", price := "12", quantity := "8" }).1
            = some r ∧
        ((∃ t ∈ initialData, r.id = t.id + 1) ∧ ∀ t ∈ initialData, t.id < r.id) ∧
        r.price = JsNum.fin 12 ∧ r.quantity = JsNum.fin 8 ∧
        (getSweets refHost (addSweet refHost (some (Doc.json initialData))
          { name := "Barfi", category := "Milk-Based", price := "12", quantity := "8" }).2).1
            = initialData ++ [r]) ∧
    (Holds refHost (some (Doc.json manySweets)) manySweets ∧
      spreadThrows refHost manySweets = true ∧
      (addSweet refHost (some (Doc.json manySweets))
        { name := "Barfi", category := "Milk-Based", price := "12", quantity := "8" }).1
          = none ∧
      (addSweet refHost (some (Doc.json manySweets))
        { name := "Barfi", category := "Milk-Based", price := "12", quantity := "8" }).2
          = some (Doc.json manySweets)) := by
  have hexact : ExactIds 1 initialData := by
    unfold ExactIds
    decide
  have hmany : Holds refHost (some (Doc.json manySweets)) manySweets :=
    ⟨Doc.json manySweets, rfl, rfl, rfl⟩
  have hnull := (add_appends_with_next_id refHost (some (Doc.json manySweets)) manySweets
    hmany { name := "Barfi", category := "Milk-Based", price := "12", quantity := "8" }).2
    manySweets_spreadThrows
  refine ⟨⟨seedSlot_holds, rfl, hexact, ?_⟩, hmany, manySweets_spreadThrows, hnull.1, hnull.2.1⟩
  obtain ⟨r, hr, _, hid, _, _, hprice, hquantity, hafter⟩ :=
    (add_appends_with_next_id refHost (some (Doc.json initialData)) initialData seedSlot_holds
      { name := "Barfi", category := "Milk-Based", price := "12", quantity := "8" }).1
      rfl hexact ⟨rfl, rfl, rfl⟩
  refine ⟨r, hr, hid (by decide), ?_, ?_, hafter⟩
  · rw [hprice]
    decide
  · rw [hquantity]
    decide

/-- C5, counterexample: the collection whose one record has the id `2 ^ 53` has pairwise
distinct ids, and after one `addSweet` the collection holds two records with the id
`2 ^ 53`. -/
theorem ids_repeat_past_exact_range :
    DistinctIds topIdData ∧
    (getSweets refHost (run refHost (some (Doc.json topIdData))
      [ Op.add { name := "Barfi", category := "Milk-Based", price := "12",
                 quantity := "8" } ])).1.map (fun s => s.id) = [2 ^ 53, 2 ^ 53] ∧
    ¬ DistinctIds (getSweets refHost (run refHost (some (Doc.json topIdData))
      [ Op.add { name := "Barfi", category := "Milk-Based", price := "12",
                 quantity := "8" } ])).1 := by
  have hids : (getSweets refHost (run refHost (some (Doc.json topIdData))
      [ Op.add { name := "Barfi", category := "Milk-Based", price := "12",
                 quantity := "8" } ])).1.map (fun s => s.id) = [2 ^ 53, 2 ^ 53] := by
    decide
  refine ⟨by unfold DistinctIds; decide, hids, ?_⟩
  unfold DistinctIds
  rw [hids]
  decide

/-- C5, as amended: the seed dataset has pairwise distinct ids, and on a host where
serialising and parsing keeps the ids, from a store whose collection has pairwise distinct
ids that lie where adding one is exact as many times as the sequence has `addSweet` calls
(from `-2 ^ 53`, and up to `2 ^ 53` less that number), every finite sequence of `addSweet`,
`deleteSweet`, `purchaseSweet` and `restockSweet` calls, with arbitrary arguments, leaves a
collection with pairwise distinct ids. -/
theorem ids_stay_distinct {σ : Type} (h : Host σ) (hk : KeepsIds h)
    (st : Option σ) (ops : List Op) (h0 : DistinctIds (getSweets h st).1)
    (he : ExactIds (addCalls ops) (getSweets h st).1) :
    DistinctIds initialData ∧ DistinctIds (getSweets h (run h st ops)).1 :=
  ⟨by unfold DistinctIds; decide, (run_keeps_ids h hk ops st h0 he).1⟩

/-- Witness of C5: from an absent slot (the seed dataset), an add, a delete of the highest
id, another add, a purchase and a restock. -/
theorem ids_stay_distinct_witness :
    KeepsIds refHost ∧
    DistinctIds (getSweets refHost (run refHost none
      [ Op.add { name := "Barfi", category := "Milk-Based", price := "12", quantity := "8" },
        Op.delete 1004,
        Op.add { name := "Ladoo", category := "Flour-Based", price := "6", quantity := "30" },
        Op.purchase 1001 5, Op.restock 1002 (-40) ])).1 :=
  ⟨refHost_keepsIds,
    (ids_stay_distinct refHost refHost_keepsIds none _
      (by unfold DistinctIds; decide) (by unfold ExactIds; decide)).2⟩

/-- C6, counterexample: the seed dataset has non-negative prices and quantities, but after
`restockSweet(1001, -100)` record 1001 has the quantity -80; and the candidate whose
quantity text is one space passes `validateSweet`, after which the record `addSweet`
builds and returns has the quantity `NaN`, for which `>= 0` is false. -/
theorem nonnegativity_not_kept :
    NonNegative initialData ∧
    ¬ NonNegative
      (getSweets refHost (restockSweet refHost (some (Doc.json initialData)) 1001 (-100)).2).1 ∧
    (validateSweet refHost
      { name := "Barfi", category := "Milk-Based", price := "12", quantity := " " }).isValid
        = true ∧
    (addSweet refHost (some (Doc.json initialData))
      { name := "Barfi", category := "Milk-Based", price := "12", quantity := " " }).1
        = some { id := 1004, name := "Barfi", category := "Milk-Based",
                 price := JsNum.fin 12, quantity := JsNum.nan } ∧
    JsNum.le (JsNum.fin 0) JsNum.nan = false := by
  refine ⟨?_, ?_, by decide, by decide, rfl⟩
  · intro s hs
    simp only [initialData, List.mem_cons, List.mem_singleton, List.not_mem_nil, or_false] at hs
    rcases hs with rfl | rfl | rfl <;> simp [JsNum.le]
  · intro hn
    have hmem : ({ id := 1001, name := "Kaju Katli", category := "Nut-Based",
                   price := JsNum.fin 50, quantity := JsNum.fin (-80) } : Sweet) ∈
        (getSweets refHost
          (restockSweet refHost (some (Doc.json initialData)) 1001 (-100)).2).1 := by
      simp [getSweets, restockSweet, refHost, saveSweets, initialData, mutateFirst,
        JsNum.add, JsNum.ofInt, jsonRecord, jsonNumber]
      norm_num
    have hq := (hn _ hmem).2
    simp [JsNum.le] at hq
    norm_num at hq

/-- C6, amended: on a host where serialising and parsing keeps prices and quantities
non-negative, from a store whose records all have `price >= 0` and `quantity >= 0`, every
finite sequence of calls keeps that property, provided each `addSweet` is given a candidate
`validateSweet` accepts whose price and quantity texts parse to numbers and each
`restockSweet` a quantity that is not negative; `deleteSweet` and `purchaseSweet` take
arbitrary arguments. -/
theorem nonnegativity_kept {σ : Type} (h : Host σ) (hk : Keeps h NonNegative)
    (st : Option σ) (h0 : NonNegative (getSweets h st).1) (ops : List Op)
    (hg : ∀ op ∈ ops, op.Guarded h) :
    NonNegative (getSweets h (run h st ops)).1 :=
  run_preserves h NonNegative (fun op => op.Guarded h) hk
    (fun sweets op hn hq => effect_nonneg h sweets op hn hq) ops st h0 hg

/-- Witness of the amended C6: from the seed dataset, a guarded add, a restock by 3, a
purchase of more than the stock and a delete. -/
theorem nonnegativity_kept_witness :
    Keeps refHost NonNegative ∧
    NonNegative (getSweets refHost (run refHost (some (Doc.json initialData))
      [ Op.add { name := "Barfi", category := "Milk-Based", price := "12", quantity := "8" },
        Op.restock 1001 3, Op.purchase 1002 400, Op.delete 1003 ])).1 :=
  ⟨refHost_keeps_nonNegative,
    nonnegativity_kept refHost refHost_keeps_nonNegative
      (some (Doc.json initialData))
      (by
        intro s hs
        have hs2 : s ∈ initialData := hs
        simp only [initialData, List.mem_cons, List.mem_singleton, List.not_mem_nil, or_false]
          at hs2
        rcases hs2 with rfl | rfl | rfl <;> simp [JsNum.le])
      _
      (by
        intro op hop
        simp only [List.mem_cons, List.mem_singleton, List.not_mem_nil, or_false] at hop
        rcases hop with rfl | rfl | rfl | rfl
        · exact ⟨by decide, by decide, by decide⟩
        · show (0 : Int) ≤ 3
          decide
        · trivial
        · trivial)⟩

/-- C7: with a medium that rejects every write, `saveSweets` reports `false` and the slot
keeps the seed dataset, yet `addSweet` returns the new record (id 1004) and not `null`. -/
theorem add_returns_record_though_write_fails :
    (saveSweets fullHost (some (Doc.json initialData))
        (initialData ++ [newSweet fullHost initialData
          { name := "Barfi", category := "Milk-Based", price := "12", quantity := "8" }])).1
      = false ∧
    (addSweet fullHost (some (Doc.json initialData))
        { name := "Barfi", category := "Milk-Based", price := "12", quantity := "8" }).1
      = some { id := 1004, name := "Barfi", category := "Milk-Based",
               price := JsNum.fin 12, quantity := JsNum.fin 8 } ∧
    (getSweets fullHost (addSweet fullHost (some (Doc.json initialData))
        { name := "Barfi", category := "Milk-Based", price := "12", quantity := "8" }).2).1
      = initialData := by
  decide

/-- C8: on a store holding a collection, when the write succeeds `deleteSweet` returns
`true`; when the medium persists the filtered collection, the collection afterwards is the
records whose id differs, in their original order, which for an id that no record has is
the collection itself. -/
theorem delete_keeps_other_ids {σ : Type} (h : Host σ) (st : Option σ)
    (sweets : List Sweet) (hst : Holds h st sweets) (id : Int) :
    (deleteSweet h st id).1 =
      h.accepts (h.stringify (sweets.filter (fun s => decide (s.id ≠ id)))) ∧
    (Persists h (sweets.filter (fun s => decide (s.id ≠ id))) →
      (deleteSweet h st id).1 = true ∧
      (getSweets h (deleteSweet h st id).2).1 =
        sweets.filter (fun s => decide (s.id ≠ id))) ∧
    ((∀ s ∈ sweets, s.id ≠ id) → sweets.filter (fun s => decide (s.id ≠ id)) = sweets) ∧
    ((∀ s ∈ sweets, s.id ≠ id) → Persists h sweets →
      (deleteSweet h st id).1 = true ∧ (getSweets h (deleteSweet h st id).2).1 = sweets) := by
  have hload := getSweets_of_holds h st sweets hst
  have hdel : deleteSweet h st id =
      saveSweets h st (sweets.filter (fun s => decide (s.id ≠ id))) := by
    simp [deleteSweet, hload]
  have hsame : (∀ s ∈ sweets, s.id ≠ id) →
      sweets.filter (fun s => decide (s.id ≠ id)) = sweets :=
    fun hall => List.filter_eq_self.2 (fun s hs => by simpa using hall s hs)
  have hafter : ∀ kept, kept = sweets.filter (fun s => decide (s.id ≠ id)) → Persists h kept →
      (deleteSweet h st id).1 = true ∧ (getSweets h (deleteSweet h st id).2).1 = kept := by
    intro kept hkept hp
    subst hkept
    rw [hdel]
    exact ⟨by rw [saveSweets_of_persists h st _ hp], load_after_save h st _ hp⟩
  refine ⟨?_, hafter _ rfl, hsame, fun hall hp => hafter sweets (hsame hall).symm hp⟩
  rw [hdel]
  unfold saveSweets
  by_cases hacc : h.accepts (h.stringify (sweets.filter (fun s => decide (s.id ≠ id)))) = true
  · rw [if_pos hacc, hacc]
  · rw [if_neg hacc, Bool.eq_false_iff.2 hacc]

/-- Witness of C8 on the seed dataset: deleting the id 7, which no record has. -/
theorem delete_keeps_other_ids_witness :
    Holds refHost (some (Doc.json initialData)) initialData ∧
      (deleteSweet refHost (some (Doc.json initialData)) 7).1 = true ∧
      (getSweets refHost (deleteSweet refHost (some (Doc.json initialData)) 7).2).1
        = initialData :=
  ⟨seedSlot_holds,
    (delete_keeps_other_ids refHost (some (Doc.json initialData)) initialData seedSlot_holds
      7).2.2.2 (by decide) ⟨rfl, rfl, rfl⟩⟩

/-- C9: if `saveSweets` of a collection that reads back as itself returns `true`, the next
`getSweets` returns that collection, record for record and in the same order; the empty
collection included, since its text is truthy. -/
theorem save_then_load {σ : Type} (h : Host σ) (st : Option σ) (sweets : List Sweet)
    (hr : ReadsBack h sweets) (hs : (saveSweets h st sweets).1 = true) :
    (saveSweets h st sweets).2 = some (h.stringify sweets) ∧
      getSweets h (saveSweets h st sweets).2 = (sweets, some (h.stringify sweets)) := by
  have hacc : h.accepts (h.stringify sweets) = true := by
    by_contra hn
    simp [saveSweets, hn] at hs
  have hslot : (saveSweets h st sweets).2 = some (h.stringify sweets) := by
    simp [saveSweets, hacc]
  refine ⟨hslot, ?_⟩
  rw [hslot]
  exact getSweets_of_holds h _ sweets (holds_of_readsBack h sweets hr)

/-- Witness of C9: saving the empty collection over the seed dataset. -/
theorem save_then_load_witness :
    ReadsBack refHost [] ∧ (saveSweets refHost (some (Doc.json initialData)) []).1 = true ∧
      (getSweets refHost (saveSweets refHost (some (Doc.json initialData)) []).2).1 = [] :=
  ⟨⟨rfl, rfl⟩, rfl,
    congrArg Prod.fst
      (save_then_load refHost (some (Doc.json initialData)) [] ⟨rfl, rfl⟩ rfl).2⟩

/-- C10: when the slot is absent, holds falsy text or holds text `JSON.parse` rejects,
`getSweets` returns the three-record seed dataset and an immediately following `getSweets`
returns it again; when the medium accepts the write the slot then holds the serialised
seed, from which that following load reads it.  After `clearAll` the slot is absent, so
the same applies. -/
theorem load_seeds_unreadable_slot {σ : Type} (h : Host σ) (st : Option σ)
    (hun : st = none ∨ ∃ data, st = some data ∧ (h.falsy data = true ∨ h.parse data = none))
    (hr : ReadsBack h initialData) :
    (getSweets h st).1 =
      [ { id := 1001, name := "Kaju Katli", category := "Nut-Based",
          price := JsNum.fin 50, quantity := JsNum.fin 20 },
        { id := 1002, name := "Gajar Halwa", category := "Vegetable-Based",
          price := JsNum.fin 30, quantity := JsNum.fin 15 },
        { id := 1003, name := "Gulab Jamun", category := "Milk-Based",
          price := JsNum.fin 10, quantity := JsNum.fin 50 } ] ∧
    (getSweets h (getSweets h st).2).1 = (getSweets h st).1 ∧
    (h.accepts (h.stringify initialData) = true →
      (getSweets h st).2 = some (h.stringify initialData) ∧
      Holds h (getSweets h st).2 initialData ∧
      getSweets h (getSweets h st).2 = (initialData, (getSweets h st).2)) ∧
    (∀ st0 : Option σ, (clearAll h st0).2 = none ∧
      (getSweets h (clearAll h st0).2).1 = initialData) := by
  have hseed : getSweets h st = getInitialData h st := by
    rcases hun with rfl | ⟨data, rfl, hf | hp⟩
    · rfl
    · simp [getSweets, hf]
    · by_cases hf : h.falsy data = true
      · simp [getSweets, hf]
      · simp [getSweets, hf, hp]
  refine ⟨by rw [hseed]; rfl, load_after_load h st hr, ?_, fun st0 => ⟨rfl, rfl⟩⟩
  intro hacc
  have hslot : (getSweets h st).2 = some (h.stringify initialData) := by
    rw [hseed]
    simp [getInitialData, saveSweets, hacc]
  refine ⟨hslot, ?_, ?_⟩
  · rw [hslot]
    exact holds_of_readsBack h _ hr
  · rw [hslot]
    exact getSweets_of_holds h _ _ (holds_of_readsBack h _ hr)

/-- Witness of C10: a slot holding text that is not JSON. -/
theorem load_seeds_unreadable_slot_witness :
    ReadsBack refHost initialData ∧
    getSweets refHost (getSweets refHost (some (Doc.text "not json"))).2 =
      (initialData, (getSweets refHost (some (Doc.text "not json"))).2) :=
  ⟨⟨rfl, rfl⟩,
    ((load_seeds_unreadable_slot refHost (some (Doc.text "not json"))
      (Or.inr ⟨Doc.text "not json", rfl, Or.inr rfl⟩) ⟨rfl, rfl⟩).2.2.1 rfl).2.2⟩

/-! ## Lemmas on the query functions -/

section Query

theorem startsWith_iff (search s : List Char) :
    startsWith search s = true ↔ ∃ after, s = search ++ after := by
  induction search generalizing s with
  | nil => simp [startsWith]
  | cons c cs ih =>
    cases s with
    | nil => simp [startsWith]
    | cons d ds =>
      simp only [startsWith, Bool.and_eq_true, beq_iff_eq, ih, List.cons_append,
        List.cons.injEq]
      constructor
      · rintro ⟨rfl, after, rfl⟩
        exact ⟨after, rfl, rfl⟩
      · rintro ⟨after, rfl, rfl⟩
        exact ⟨rfl, after, rfl⟩

theorem occursIn_iff (search s : List Char) :
    occursIn search s = true ↔ ∃ before after, s = before ++ search ++ after := by
  induction s with
  | nil =>
    simp only [occursIn, startsWith_iff]
    constructor
    · rintro ⟨after, h⟩
      exact ⟨[], after, by simpa using h⟩
    · rintro ⟨before, after, h⟩
      have h1 : before = [] ∧ search = [] ∧ after = [] := by
        simpa [List.append_eq_nil, and_assoc] using h.symm
      exact ⟨[], by simp [h1.2.1]⟩
  | cons d ds ih =>
    simp only [occursIn, Bool.or_eq_true, startsWith_iff, ih]
    constructor
    · rintro (⟨after, h⟩ | ⟨before, after, h⟩)
      · exact ⟨[], after, by simpa using h⟩
      · exact ⟨d :: before, after, by simp [h]⟩
    · rintro ⟨before, after, h⟩
      cases before with
      | nil => exact Or.inl ⟨after, by simpa using h⟩
      | cons b before =>
        simp only [List.cons_append, List.cons.injEq] at h
        exact Or.inr ⟨before, after, h.2⟩

theorem includes_iff (s search : String) : includes s search = true ↔ Contains s search :=
  occursIn_iff search.toList s.toList

theorem includes_empty (s : String) : includes s "" = true :=
  (includes_iff s "").2 ⟨[], s.toList, rfl⟩

end Query

/-- C11, counterexample: on the seed dataset, with an empty search term, the category
`all`, an empty upper bound and an absent lower bound, `filterSweets` returns no record,
although every seed record passes the name test and has a price between 0 and
`+Infinity`; an absent bound is `NaN`, not 0. -/
theorem filter_absent_bound_matches_nothing :
    filterSweets refHost refText initialData
      { searchTerm := "", category := "all", minPrice := none, maxPrice := some "" } = [] ∧
    boundOr refHost (JsNum.fin 0) none = JsNum.nan ∧
    ∀ s ∈ initialData,
      includes (refText.toLowerCase s.name) (refText.toLowerCase "") = true ∧
        JsNum.le (JsNum.fin 0) s.price = true ∧ JsNum.le s.price JsNum.posInf = true := by
  decide

/-- C11, amended: with both bounds given as texts, `filterSweets` keeps exactly the
records, in input order, whose lower-cased name contains the lower-cased search term,
whose category is the given one unless that is `all`, and whose price lies between the
bounds, an empty lower bound being 0, an empty upper bound `+Infinity` and any other text
the number `parseFloat` reads from it.  An empty lower-cased term matches every name, a
bound that is `NaN` (as an absent one is) leaves no record, and on the seed dataset the
term `gul` with the category `all` and empty bounds gives exactly the Gulab Jamun
record. -/
theorem filter_keeps_exactly {σ : Type} (h : Host σ) (t : Text) (sweets : List Sweet)
    (term category lo hi : String) :
    (∃ keep : Sweet → Bool,
      filterSweets h t sweets
        { searchTerm := term, category := category, minPrice := some lo, maxPrice := some hi }
        = sweets.filter keep ∧
      ∀ s, keep s = true ↔
        (Contains (t.toLowerCase s.name) (t.toLowerCase term) ∧
          (category = "all" ∨ s.category = category) ∧
          JsNum.le (if lo = "" then JsNum.fin 0 else h.parseFloat lo) s.price = true ∧
          JsNum.le s.price (if hi = "" then JsNum.posInf else h.parseFloat hi) = true)) ∧
    (t.toLowerCase term = "" →
      ∀ s : Sweet, Contains (t.toLowerCase s.name) (t.toLowerCase term)) ∧
    (∀ f : Filters, boundOr h (JsNum.fin 0) f.minPrice = JsNum.nan ∨
        boundOr h JsNum.posInf f.maxPrice = JsNum.nan → filterSweets h t sweets f = []) ∧
    filterSweets refHost refText initialData
      { searchTerm := "gul", category := "all", minPrice := some "", maxPrice := some "" } =
      [ { id := 1003, name := "Gulab Jamun", category := "Milk-Based",
          price := JsNum.fin 10, quantity := JsNum.fin 50 } ] := by
  refine ⟨⟨_, rfl, fun s => ?_⟩, ?_, ?_, by decide⟩
  · simp only [boundOr, Bool.and_eq_true, Bool.or_eq_true, beq_iff_eq, includes_iff,
      ne_eq, ite_not, and_assoc]
  · intro hterm s
    rw [hterm]
    exact (includes_iff _ "").1 (includes_empty _)
  · intro f hnan
    unfold filterSweets
    rw [List.filter_eq_nil_iff]
    intro s _
    rcases hnan with hn | hn
    · simp [hn, JsNum.le]
    · rw [hn]
      cases s.price <;> simp [JsNum.le]

section Sorting

theorem pairwise_orderedInsert {α : Type} (r : α → α → Prop) [DecidableRel r] (a : α)
    (l : List α) (hl : l.Pairwise r) (htot : ∀ b ∈ l, r a b ∨ r b a)
    (htr : ∀ b ∈ l, ∀ c ∈ l, r a b → r b c → r a c) :
    (l.orderedInsert r a).Pairwise r := by
  induction l with
  | nil => simp
  | cons b l ih =>
    obtain ⟨hb, hl2⟩ := List.pairwise_cons.1 hl
    by_cases hab : r a b
    · rw [List.orderedInsert, if_pos hab]
      refine List.pairwise_cons.2 ⟨?_, hl⟩
      intro c hc
      rcases List.mem_cons.1 hc with rfl | hc
      · exact hab
      · exact htr b (List.mem_cons_self _ _) c (List.mem_cons_of_mem _ hc) hab (hb c hc)
    · rw [List.orderedInsert, if_neg hab]
      refine List.pairwise_cons.2 ⟨?_, ?_⟩
      · intro c hc
        rcases (List.mem_orderedInsert r).1 hc with rfl | hc
        · exact (htot b (List.mem_cons_self _ _)).resolve_left hab
        · exact hb c hc
      · exact ih hl2 (fun c hc => htot c (List.mem_cons_of_mem _ hc))
          (fun c hc d hd => htr c (List.mem_cons_of_mem _ hc) d (List.mem_cons_of_mem _ hd))

theorem pairwise_insertionSort {α : Type} (r : α → α → Prop) [DecidableRel r] (l : List α)
    (htot : ∀ a ∈ l, ∀ b ∈ l, r a b ∨ r b a)
    (htr : ∀ a ∈ l, ∀ b ∈ l, ∀ c ∈ l, r a b → r b c → r a c) :
    (l.insertionSort r).Pairwise r := by
  induction l with
  | nil => simp
  | cons a l ih =>
    have hsub : ∀ x, x ∈ l.insertionSort r → x ∈ a :: l :=
      fun x hx => List.mem_cons_of_mem _ ((List.mem_insertionSort r).1 hx)
    rw [List.insertionSort]
    refine pairwise_orderedInsert r a _ ?_ ?_ ?_
    · exact ih (fun x hx y hy => htot x (List.mem_cons_of_mem _ hx) y (List.mem_cons_of_mem _ hy))
        (fun x hx y hy z hz => htr x (List.mem_cons_of_mem _ hx) y (List.mem_cons_of_mem _ hy)
          z (List.mem_cons_of_mem _ hz))
    · exact fun b hb => htot a (List.mem_cons_self _ _) b (hsub b hb)
    · exact fun b hb c hc => htr a (List.mem_cons_self _ _) b (hsub b hb) c (hsub c hc)

theorem le_total_of_numbers (x y : JsNum) (hx : x.isNaN = false) (hy : y.isNaN = false) :
    JsNum.le x y = true ∨ JsNum.le y x = true := by
  cases x <;> cases y <;> simp_all [JsNum.le, JsNum.isNaN]
  exact le_total _ _

theorem le_trans_of_numbers (x y z : JsNum) (hxy : JsNum.le x y = true)
    (hyz : JsNum.le y z = true) : JsNum.le x z = true := by
  cases x <;> cases y <;> cases z <;> simp_all [JsNum.le]
  exact le_trans hxy hyz

theorem sub_not_positive_iff (x y : JsNum) (hx : x.isNaN = false) (hy : y.isNaN = false) :
    JsNum.lt (JsNum.fin 0) (JsNum.sub x y) = false ↔ JsNum.le x y = true := by
  cases x <;> cases y <;>
    simp_all [JsNum.le, JsNum.lt, JsNum.sub, JsNum.add, JsNum.neg, JsNum.isNaN]

theorem neg_sub_not_positive_iff (x y : JsNum) (hx : x.isNaN = false)
    (hy : y.isNaN = false) :
    JsNum.lt (JsNum.fin 0) (JsNum.neg (JsNum.sub x y)) = false ↔ JsNum.le y x = true := by
  cases x <;> cases y <;>
    simp_all [JsNum.le, JsNum.lt, JsNum.sub, JsNum.add, JsNum.neg, JsNum.isNaN]

theorem ascending_iff (t : Text) (sortBy : String)
    (hkey : sortBy = "name" ∨ sortBy = "category" ∨ sortBy = "price" ∨ sortBy = "quantity")
    (a b : Sweet) (ha : keyIsNumber sortBy a) (hb : keyIsNumber sortBy b) :
    JsNum.lt (JsNum.fin 0) (comparison t sortBy a b) = false ↔ keyLe t sortBy a b := by
  rcases hkey with rfl | rfl | rfl | rfl
  · simp [comparison, keyLe, JsNum.lt, JsNum.ofInt]
  · simp [comparison, keyLe, JsNum.lt, JsNum.ofInt]
  · simp only [keyIsNumber, if_true] at ha hb
    simpa [comparison, keyLe] using sub_not_positive_iff a.price b.price ha hb
  · have ha2 : a.quantity.isNaN = false := by simpa [keyIsNumber] using ha
    have hb2 : b.quantity.isNaN = false := by simpa [keyIsNumber] using hb
    simpa [comparison, keyLe] using sub_not_positive_iff a.quantity b.quantity ha2 hb2

theorem descending_iff (t : Text) (ht : t.Collates) (sortBy : String)
    (hkey : sortBy = "name" ∨ sortBy = "category" ∨ sortBy = "price" ∨ sortBy = "quantity")
    (a b : Sweet) (ha : keyIsNumber sortBy a) (hb : keyIsNumber sortBy b) :
    JsNum.lt (JsNum.fin 0) (JsNum.neg (comparison t sortBy a b)) = false ↔
      keyLe t sortBy b a := by
  have hflip : ∀ x y : String, 0 ≤ t.localeCompare x y ↔ t.localeCompare y x ≤ 0 := by
    intro x y
    have h1 := ht.1 y x
    constructor
    · intro h0
      by_contra hc
      have : t.localeCompare x y < 0 := (ht.1 x y).2 (not_le.1 hc)
      omega
    · intro h0
      by_contra hc
      have : 0 < t.localeCompare y x := (ht.1 x y).1 (not_le.1 hc)
      omega
  rcases hkey with rfl | rfl | rfl | rfl
  · simpa [comparison, keyLe, JsNum.lt, JsNum.ofInt, JsNum.neg] using hflip a.name b.name
  · simpa [comparison, keyLe, JsNum.lt, JsNum.ofInt, JsNum.neg] using
      hflip a.category b.category
  · simp only [keyIsNumber, if_true] at ha hb
    simpa [comparison, keyLe] using neg_sub_not_positive_iff a.price b.price ha hb
  · have ha2 : a.quantity.isNaN = false := by simpa [keyIsNumber] using ha
    have hb2 : b.quantity.isNaN = false := by simpa [keyIsNumber] using hb
    simpa [comparison, keyLe] using neg_sub_not_positive_iff a.quantity b.quantity ha2 hb2

theorem keyLe_total (t : Text) (ht : t.Collates) (sortBy : String) (a b : Sweet)
    (ha : keyIsNumber sortBy a) (hb : keyIsNumber sortBy b) :
    keyLe t sortBy a b ∨ keyLe t sortBy b a := by
  have hstr : ∀ x y : String, t.localeCompare x y ≤ 0 ∨ t.localeCompare y x ≤ 0 := by
    intro x y
    by_cases hxy : t.localeCompare x y ≤ 0
    · exact Or.inl hxy
    · right
      have := (ht.1 y x).2 (not_le.1 hxy)
      omega
  unfold keyLe
  unfold keyIsNumber at ha hb
  split_ifs at ha hb ⊢ <;>
    first
    | exact hstr _ _
    | exact le_total_of_numbers _ _ ha hb

theorem keyLe_trans (t : Text) (ht : t.Collates) (sortBy : String) (a b c : Sweet)
    (hab : keyLe t sortBy a b) (hbc : keyLe t sortBy b c) : keyLe t sortBy a c := by
  unfold keyLe at hab hbc ⊢
  split_ifs at hab hbc ⊢ <;>
    first
    | exact ht.2 _ _ _ hab hbc
    | exact le_trans_of_numbers _ _ _ hab hbc

end Sorting

section Units

theorem unitsLe_total (x y : List Nat) : unitsLe x y = true ∨ unitsLe y x = true := by
  induction x generalizing y with
  | nil => simp [unitsLe]
  | cons a as ih =>
    cases y with
    | nil => simp [unitsLe]
    | cons b bs =>
      simp only [unitsLe, Bool.or_eq_true, Bool.and_eq_true, decide_eq_true_eq, beq_iff_eq]
      rcases Nat.lt_trichotomy a b with hlt | heq | hgt
      · exact Or.inl (Or.inl hlt)
      · rcases ih bs with h | h
        · exact Or.inl (Or.inr ⟨heq, h⟩)
        · exact Or.inr (Or.inr ⟨heq.symm, h⟩)
      · exact Or.inr (Or.inl hgt)

theorem unitsLe_trans (x y z : List Nat) (hxy : unitsLe x y = true)
    (hyz : unitsLe y z = true) : unitsLe x z = true := by
  induction x generalizing y z with
  | nil => simp [unitsLe]
  | cons a as ih =>
    cases y with
    | nil => simp [unitsLe] at hxy
    | cons b bs =>
      cases z with
      | nil => simp [unitsLe] at hyz
      | cons c cs =>
        simp only [unitsLe, Bool.or_eq_true, Bool.and_eq_true, decide_eq_true_eq,
          beq_iff_eq] at hxy hyz ⊢
        rcases hxy with hab | ⟨hab, hrest⟩
        · rcases hyz with hbc | ⟨hbc, _⟩
          · exact Or.inl (lt_trans hab hbc)
          · exact Or.inl (hbc ▸ hab)
        · rcases hyz with hbc | ⟨hbc, hrest2⟩
          · exact Or.inl (hab ▸ hbc)
          · exact Or.inr ⟨hab.trans hbc, ih bs cs hrest hrest2⟩

theorem refText_collates : refText.Collates := by
  have hval : ∀ a b : String, refText.localeCompare a b ≤ 0 ↔
      unitsLe (utf16 a) (utf16 b) = true := by
    intro a b
    simp only [refText]
    split_ifs <;> simp_all
  have hneg : ∀ a b : String, refText.localeCompare a b < 0 ↔
      (unitsLe (utf16 a) (utf16 b) = true ∧ unitsLe (utf16 b) (utf16 a) = false) := by
    intro a b
    simp only [refText]
    split_ifs <;> simp_all
  have hpos : ∀ a b : String, 0 < refText.localeCompare a b ↔
      unitsLe (utf16 a) (utf16 b) = false := by
    intro a b
    simp only [refText]
    split_ifs <;> simp_all
  refine ⟨fun a b => ?_, fun a b c hab hbc => ?_⟩
  · rw [hneg, hpos]
    constructor
    · exact fun hh => hh.2
    · intro hh
      refine ⟨?_, hh⟩
      rcases unitsLe_total (utf16 a) (utf16 b) with h1 | h1
      · exact h1
      · rw [h1] at hh
        cases hh
  · rw [hval] at hab hbc ⊢
    exact unitsLe_trans _ _ _ hab hbc

end Units

section Sorting

theorem pairwise_insertionSort_of_iff {α : Type} (r S : α → α → Prop) [DecidableRel r]
    (l : List α) (hiff : ∀ a ∈ l, ∀ b ∈ l, (r a b ↔ S a b))
    (htot : ∀ a ∈ l, ∀ b ∈ l, S a b ∨ S b a)
    (htr : ∀ a b c, S a b → S b c → S a c) :
    (l.insertionSort r).Pairwise S := by
  have hsorted : (l.insertionSort r).Pairwise r := by
    refine pairwise_insertionSort r l ?_ ?_
    · intro a ha b hb
      rcases htot a ha b hb with hs | hs
      · exact Or.inl ((hiff a ha b hb).2 hs)
      · exact Or.inr ((hiff b hb a ha).2 hs)
    · intro a ha b hb c hc hab hbc
      exact (hiff a ha c hc).2
        (htr a b c ((hiff a ha b hb).1 hab) ((hiff b hb c hc).1 hbc))
  refine hsorted.imp_of_mem ?_
  intro a b ha hb hab
  exact (hiff a ((List.mem_insertionSort r).1 ha) b ((List.mem_insertionSort r).1 hb)).1 hab

end Sorting

/-- C12: for a collation `localeCompare`, a key among `name`, `category`, `price` and
`quantity`, and a collection whose records have a number (not `NaN`) as that key,
`sortSweets` returns a permutation of the input that is non-decreasing in the key for
`asc` and non-increasing for `desc`, and two records of which neither key is above the
other (equal keys) keep their relative order in both orders; sorting
`[{name B, price 5}, {name A, price 5}]` by price ascending leaves `B` before `A`. -/
theorem sort_is_stable_sorted_permutation (t : Text) (ht : t.Collates)
    (sweets : List Sweet) (sortBy : String)
    (hkey : sortBy = "name" ∨ sortBy = "category" ∨ sortBy = "price" ∨ sortBy = "quantity")
    (hnum : ∀ s ∈ sweets, keyIsNumber sortBy s) :
    (sortSweets t sweets sortBy "asc").Perm sweets ∧
    (sortSweets t sweets sortBy "desc").Perm sweets ∧
    (sortSweets t sweets sortBy "asc").Pairwise (fun a b => keyLe t sortBy a b) ∧
    (sortSweets t sweets sortBy "desc").Pairwise (fun a b => keyLe t sortBy b a) ∧
    (∀ a b, keyLe t sortBy a b → keyLe t sortBy b a → List.Sublist [a, b] sweets →
      List.Sublist [a, b] (sortSweets t sweets sortBy "asc") ∧
        List.Sublist [a, b] (sortSweets t sweets sortBy "desc")) ∧
    sortSweets refText
      [ { id := 1, name := "B", category := "X", price := JsNum.fin 5, quantity := JsNum.fin 1 },
        { id := 2, name := "A", category := "X", price := JsNum.fin 5, quantity := JsNum.fin 1 } ]
      "price" "asc" =
      [ { id := 1, name := "B", category := "X", price := JsNum.fin 5, quantity := JsNum.fin 1 },
        { id := 2, name := "A", category := "X", price := JsNum.fin 5,
          quantity := JsNum.fin 1 } ] := by
  have hasc : sortSweets t sweets sortBy "asc" = sweets.insertionSort
      (fun a b => JsNum.lt (JsNum.fin 0) (comparison t sortBy a b) = false) := by
    simp [sortSweets, arraySort]
  have hdesc : sortSweets t sweets sortBy "desc" = sweets.insertionSort
      (fun a b => JsNum.lt (JsNum.fin 0) (JsNum.neg (comparison t sortBy a b)) = false) := by
    simp [sortSweets, arraySort]
  refine ⟨?_, ?_, ?_, ?_, ?_, ?_⟩
  · rw [hasc]
    exact List.perm_insertionSort _ _
  · rw [hdesc]
    exact List.perm_insertionSort _ _
  · rw [hasc]
    exact pairwise_insertionSort_of_iff _ (fun a b => keyLe t sortBy a b) sweets
      (fun a ha b hb => ascending_iff t sortBy hkey a b (hnum a ha) (hnum b hb))
      (fun a ha b hb => keyLe_total t ht sortBy a b (hnum a ha) (hnum b hb))
      (fun a b c => keyLe_trans t ht sortBy a b c)
  · rw [hdesc]
    exact pairwise_insertionSort_of_iff _ (fun a b => keyLe t sortBy b a) sweets
      (fun a ha b hb => descending_iff t ht sortBy hkey a b (hnum a ha) (hnum b hb))
      (fun a ha b hb => keyLe_total t ht sortBy b a (hnum b hb) (hnum a ha))
      (fun a b c hab hbc => keyLe_trans t ht sortBy c b a hbc hab)
  · intro a b hab hba hsub
    have ha : a ∈ sweets := hsub.subset (List.mem_cons_self _ _)
    have hb : b ∈ sweets := hsub.subset (List.mem_cons_of_mem _ (List.mem_cons_self _ _))
    constructor
    · rw [hasc]
      exact List.pair_sublist_insertionSort
        ((ascending_iff t sortBy hkey a b (hnum a ha) (hnum b hb)).2 hab) hsub
    · rw [hdesc]
      exact List.pair_sublist_insertionSort
        ((descending_iff t ht sortBy hkey a b (hnum a ha) (hnum b hb)).2 hba) hsub
  · simp [sortSweets, arraySort, comparison, JsNum.sub, JsNum.add, JsNum.neg, JsNum.lt]

/-- Witness of C12: the seed dataset sorted by price. -/
theorem sort_is_stable_sorted_permutation_witness :
    refText.Collates ∧
      (sortSweets refText initialData "price" "asc").Pairwise
        (fun a b => keyLe refText "price" a b) :=
  ⟨refText_collates,
    (sort_is_stable_sorted_permutation refText refText_collates initialData "price"
      (Or.inr (Or.inr (Or.inl rfl)))
      (by
        intro s hs
        simp only [initialData, List.mem_cons, List.mem_singleton, List.not_mem_nil,
          or_false] at hs
        rcases hs with rfl | rfl | rfl <;> simp [keyIsNumber, JsNum.isNaN])).2.2.1⟩

section Statistics

theorem add_assoc_num (x y z : JsNum) :
    JsNum.add (JsNum.add x y) z = JsNum.add x (JsNum.add y z) := by
  cases x <;> cases y <;> cases z <;> simp [JsNum.add, add_assoc]

theorem add_zero_num (x : JsNum) : JsNum.add x (JsNum.fin 0) = x := by
  cases x <;> simp [JsNum.add]

theorem zero_add_num (x : JsNum) : JsNum.add (JsNum.fin 0) x = x := by
  cases x <;> simp [JsNum.add]

theorem foldl_add_eq {α : Type} (f : α → JsNum) (xs : List α) (e : JsNum) :
    xs.foldl (fun acc x => JsNum.add acc (f x)) e = JsNum.add e (sumNums (xs.map f)) := by
  induction xs generalizing e with
  | nil => simp [sumNums, add_zero_num]
  | cons x xs ih =>
    simp only [List.foldl_cons, List.map_cons, sumNums]
    rw [ih, add_assoc_num]

theorem setValues_aux (xs acc : List String) (hacc : acc.Nodup) :
    (xs.foldl (fun a x => if x ∈ a then a else a ++ [x]) acc).Nodup ∧
      ∀ c, c ∈ xs.foldl (fun a x => if x ∈ a then a else a ++ [x]) acc ↔ c ∈ acc ∨ c ∈ xs := by
  induction xs generalizing acc with
  | nil => simp [hacc]
  | cons x xs ih =>
    simp only [List.foldl_cons]
    by_cases hx : x ∈ acc
    · rw [if_pos hx]
      obtain ⟨h1, h2⟩ := ih acc hacc
      refine ⟨h1, fun c => ?_⟩
      rw [h2 c, List.mem_cons]
      constructor
      · rintro (h | h)
        · exact Or.inl h
        · exact Or.inr (Or.inr h)
      · rintro (h | rfl | h)
        · exact Or.inl h
        · exact Or.inl hx
        · exact Or.inr h
    · rw [if_neg hx]
      have hnd : (acc ++ [x]).Nodup := by
        rw [List.nodup_append]
        refine ⟨hacc, List.nodup_singleton _, ?_⟩
        intro a ha ha2
        rw [List.mem_singleton.1 ha2] at ha
        exact hx ha
      obtain ⟨h1, h2⟩ := ih (acc ++ [x]) hnd
      refine ⟨h1, fun c => ?_⟩
      rw [h2 c, List.mem_append, List.mem_singleton, List.mem_cons, or_assoc]

theorem setValues_nodup (xs : List String) : (setValues xs).Nodup :=
  (setValues_aux xs [] List.nodup_nil).1

theorem mem_setValues (xs : List String) (c : String) : c ∈ setValues xs ↔ c ∈ xs := by
  have h := (setValues_aux xs [] List.nodup_nil).2 c
  simpa [setValues] using h

theorem setValues_length (xs : List String) : (setValues xs).length = xs.toFinset.card := by
  rw [← List.toFinset_card_of_nodup (setValues_nodup xs)]
  congr 1
  ext c
  simp [mem_setValues]

end Statistics

/-- C13, counterexample: on the seed dataset `getInventoryStats` gives the total value
`50*20 + 30*15 + 10*50 = 1950`, not 2450. -/
theorem seed_total_value_is_not_2450 :
    (getInventoryStats initialData).totalValue = JsNum.fin 1950 ∧
      (getInventoryStats initialData).totalValue ≠ JsNum.fin 2450 := by
  have h : (getInventoryStats initialData).totalValue = JsNum.fin 1950 := by
    simp [getInventoryStats, calculateTotalValue, initialData, JsNum.add, JsNum.mul]
    norm_num
  refine ⟨h, ?_⟩
  rw [h]
  intro hc
  injection hc with hc
  norm_num at hc

/-- C13, amended: for every collection `getInventoryStats` returns the number of records,
the sum of the quantities, the sum over all records of price times quantity, the number of
records with quantity strictly less than 10, and the number of distinct category values;
on the seed dataset the total value is 1950 and the low-stock count is 0. -/
theorem stats_are_totals (sweets : List Sweet) :
    (getInventoryStats sweets).totalItems = sweets.length ∧
    (getInventoryStats sweets).totalQuantity = sumNums (sweets.map (fun s => s.quantity)) ∧
    (getInventoryStats sweets).totalValue =
      sumNums (sweets.map (fun s => JsNum.mul s.price s.quantity)) ∧
    (getInventoryStats sweets).lowStockCount =
      sweets.countP (fun s => JsNum.lt s.quantity (JsNum.fin 10)) ∧
    (getInventoryStats sweets).categories =
      (sweets.map (fun s => s.category)).toFinset.card ∧
    (getInventoryStats initialData).totalValue = JsNum.fin 1950 ∧
    (getInventoryStats initialData).lowStockCount = 0 := by
  refine ⟨rfl, ?_, ?_, ?_, ?_, ?_, by decide⟩
  · show sweets.foldl (fun sum s => JsNum.add sum s.quantity) (JsNum.fin 0) = _
    rw [foldl_add_eq (fun s : Sweet => s.quantity), zero_add_num]
  · show sweets.foldl (fun total sweet => JsNum.add total (JsNum.mul sweet.price sweet.quantity))
      (JsNum.fin 0) = _
    rw [foldl_add_eq (fun s : Sweet => JsNum.mul s.price s.quantity), zero_add_num]
  · show (sweets.filter (fun s => JsNum.lt s.quantity (JsNum.fin 10))).length = _
    rw [List.countP_eq_length_filter]
  · show (setValues (sweets.map (fun s => s.category))).length = _
    exact setValues_length _
  · simp [getInventoryStats, calculateTotalValue, initialData, JsNum.add, JsNum.mul]
    norm_num

section Validation

variable {σ : Type}

theorem validateFields_toFields (h : Host σ) (c : Candidate) :
    validateFields h c.toFields = validateSweet h c := by
  simp [validateFields, validateSweet, Candidate.toFields, blank, JsVal.isFalsy,
    JsVal.toNumber, JsVal.toText]

theorem dropWhile_eq_nil_iff_all {α : Type} (p : α → Bool) (l : List α) :
    l.dropWhile p = [] ↔ l.all p = true := by
  induction l with
  | nil => simp
  | cons a l ih =>
    by_cases ha : p a = true
    · simp [List.dropWhile, ha, ih]
    · simp [List.dropWhile, ha]

theorem dropWhile_head_not {α : Type} (p : α → Bool) (l : List α) (a : α) (rest : List α)
    (hl : l.dropWhile p = a :: rest) : p a = false := by
  induction l with
  | nil => simp at hl
  | cons b l ih =>
    by_cases hb : p b = true
    · rw [List.dropWhile_cons, if_pos hb] at hl
      exact ih hl
    · rw [List.dropWhile_cons, if_neg hb] at hl
      have hba : b = a := (List.cons.inj hl).1
      rw [← hba]
      simpa using hb

theorem trim_eq_empty_iff (s : String) : trim s = "" ↔ s.toList.all isJsSpace = true := by
  constructor
  · intro ht
    have h1 : ((s.toList.dropWhile isJsSpace).reverse.dropWhile isJsSpace).reverse = [] := by
      have h0 := congrArg String.toList ht
      exact h0
    have h2 : (s.toList.dropWhile isJsSpace).reverse.dropWhile isJsSpace = [] :=
      List.reverse_eq_nil_iff.1 h1
    rw [dropWhile_eq_nil_iff_all] at h2
    by_contra hall
    have hne : s.toList.dropWhile isJsSpace ≠ [] := by
      intro hc
      exact hall ((dropWhile_eq_nil_iff_all _ _).1 hc)
    obtain ⟨a, rest, hcons⟩ := List.exists_cons_of_ne_nil hne
    have hhead : isJsSpace a = false := dropWhile_head_not isJsSpace s.toList a rest hcons
    have hmem : a ∈ (s.toList.dropWhile isJsSpace).reverse := by
      rw [hcons]
      simp
    have hsp := List.all_eq_true.1 h2 a hmem
    rw [hhead] at hsp
    cases hsp
  · intro hall
    have h1 : s.toList.dropWhile isJsSpace = [] := (dropWhile_eq_nil_iff_all _ _).2 hall
    unfold trim
    rw [h1]
    rfl

theorem blank_iff (name : Option String) :
    blank name = true ↔ name = none ∨ ∃ s, name = some s ∧ s.toList.all isJsSpace = true := by
  cases name with
  | none => simp [blank]
  | some s =>
    have hb : blank (some s) = true ↔ s.toList.all isJsSpace = true := by
      simp only [blank, Bool.or_eq_true, beq_iff_eq, trim_eq_empty_iff]
      constructor
      · rintro (rfl | h)
        · rfl
        · exact h
      · exact fun h => Or.inr h
    rw [hb]
    constructor
    · exact fun h => Or.inr ⟨s, rfl, h⟩
    · rintro (h | ⟨s2, h1, h2⟩)
      · cases h
      · cases h1
        exact h2

end Validation

/-- C14: `validateSweet` evaluates its four rules independently: the errors are, in the
order name, category, price, quantity, one message for each violated rule and nothing
else, and `isValid` is true exactly when there is no error.  A name is rejected exactly
when it is missing or consists of white space only (the empty name included); with such a
name and the three other rules met the result is invalid with the single error
`Sweet name is required`, as for name `""`, category `X`, price `5`, quantity `2`.
`validateFields` is `validateSweet` on fields that may be absent or numbers. -/
theorem validate_accumulates {σ : Type} (h : Host σ) (sweet : Fields) :
    (validateFields h sweet).errors =
      (if blank sweet.name then ["Sweet name is required"] else []) ++
      (if blank sweet.category then ["Category is required"] else []) ++
      (if rejectsPrice h sweet.price then ["Valid price is required"] else []) ++
      (if rejectsQuantity h sweet.quantity then ["Valid quantity is required"] else []) ∧
    ((validateFields h sweet).isValid = true ↔ (validateFields h sweet).errors = []) ∧
    (blank sweet.name = true ↔
      sweet.name = none ∨ ∃ s, sweet.name = some s ∧ s.toList.all isJsSpace = true) ∧
    (blank sweet.name = true → blank sweet.category = false →
      rejectsPrice h sweet.price = false → rejectsQuantity h sweet.quantity = false →
      validateFields h sweet = { isValid := false, errors := ["Sweet name is required"] }) ∧
    (∀ c : Candidate, validateSweet h c = validateFields h c.toFields) ∧
    validateSweet refHost { name := "", category := "X", price := "5", quantity := "2" } =
      { isValid := false, errors := ["Sweet name is required"] } ∧
    validateFields refHost
        { name := none, category := some "X", price := JsVal.str "5",
          quantity := JsVal.str "2" } =
      { isValid := false, errors := ["Sweet name is required"] } := by
  have herr : (validateFields h sweet).errors =
      (if blank sweet.name then ["Sweet name is required"] else []) ++
      (if blank sweet.category then ["Category is required"] else []) ++
      (if rejectsPrice h sweet.price then ["Valid price is required"] else []) ++
      (if rejectsQuantity h sweet.quantity then ["Valid quantity is required"] else []) := by
    simp only [validateFields, rejectsPrice, rejectsQuantity]
    split_ifs <;> rfl
  refine ⟨herr, ?_, blank_iff sweet.name, ?_,
    fun c => (validateFields_toFields h c).symm, by decide, by decide⟩
  · simp [validateFields, List.length_eq_zero]
  · intro h1 h2 h3 h4
    have hv : (validateFields h sweet).isValid =
        decide ((validateFields h sweet).errors.length = 0) := rfl
    have he : (validateFields h sweet).errors = ["Sweet name is required"] := by
      rw [herr, h1, h2, h3, h4]
      rfl
    have hstruct : validateFields h sweet =
        { isValid := (validateFields h sweet).isValid
          errors := (validateFields h sweet).errors } := rfl
    rw [hstruct, hv, he]
    rfl

/-- C15: `validateSweet` does not report exactly the missing, non-numeric and negative
values.  The quantity text of one space is not a number (`parseInt` gives `NaN`) and is not
reported; the quantity text `-0.5` is below zero and is not reported; the number `0` given
as a price is reported although it is a number `>= 0`. -/
theorem validate_misses_cases :
    (validateSweet refHost
      { name := "Barfi", category := "Milk-Based", price := "12", quantity := " " }).errors
        = [] ∧
    refHost.parseInt " " = JsNum.nan ∧
    (validateSweet refHost
      { name := "Barfi", category := "Milk-Based", price := "12", quantity := "-0.5" }).errors
        = [] ∧
    JsNum.lt (refHost.parseFloat "-0.5") (JsNum.fin 0) = true ∧
    (validateFields refHost
      { name := some "Barfi", category := some "Milk-Based", price := JsVal.num (JsNum.fin 0),
        quantity := JsVal.num (JsNum.fin 8) }).errors = ["Valid price is required"] ∧
    (validateFields refHost
      { name := some "Barfi", category := some "Milk-Based", price := JsVal.str "0",
        quantity := JsVal.num (JsNum.fin 8) }).errors = [] := by
  decide

/-- C16: for every store, `getCategories` returns a list without duplicates, ascending in
the order of the code units of the texts, whose elements are exactly the category values
of the records of the loaded collection; on the seed dataset it is `Milk-Based`,
`Nut-Based`, `Vegetable-Based`. -/
theorem categories_sorted_distinct {σ : Type} (h : Host σ) (st : Option σ) :
    (getCategories h st).1.Nodup ∧
    (getCategories h st).1.Pairwise (fun a b => unitsLe (utf16 a) (utf16 b) = true) ∧
    (∀ c, c ∈ (getCategories h st).1 ↔ ∃ s ∈ (getSweets h st).1, s.category = c) ∧
    (getCategories refHost none).1 = ["Milk-Based", "Nut-Based", "Vegetable-Based"] := by
  have hperm : ((getCategories h st).1).Perm
      (setValues ((getSweets h st).1.map (fun s => s.category))) :=
    List.perm_insertionSort _ _
  refine ⟨(List.Perm.nodup_iff hperm).2 (setValues_nodup _), ?_, fun c => ?_, by decide⟩
  · exact pairwise_insertionSort _ _
      (fun a _ b _ => unitsLe_total (utf16 a) (utf16 b))
      (fun a _ b _ c _ hab hbc => unitsLe_trans _ _ _ hab hbc)
  · rw [hperm.mem_iff, mem_setValues, List.mem_map]

/-- C17: when the lower case of the empty text is empty, `filterSweets` with the empty
search term, the category `all` and two empty bounds returns a collection whose prices are
all `>= 0` unchanged; and for every collection and all criteria the result is a
subsequence of the input that a second `filterSweets` with the same criteria leaves
unchanged. -/
theorem filter_neutral_and_idempotent {σ : Type} (h : Host σ) (t : Text)
    (hlower : t.toLowerCase "" = "") (sweets : List Sweet) :
    ((∀ s ∈ sweets, JsNum.le (JsNum.fin 0) s.price = true) →
      filterSweets h t sweets
        { searchTerm := "", category := "all", minPrice := some "", maxPrice := some "" }
        = sweets) ∧
    ∀ f : Filters,
      List.Sublist (filterSweets h t sweets f) sweets ∧
        filterSweets h t (filterSweets h t sweets f) f = filterSweets h t sweets f := by
  refine ⟨fun hprice => ?_, fun f => ⟨List.filter_sublist _, ?_⟩⟩
  · unfold filterSweets
    rw [List.filter_eq_self]
    intro s hs
    have hle := hprice s hs
    have hmax : JsNum.le s.price JsNum.posInf = true := by
      revert hle
      cases s.price <;> simp [JsNum.le]
    simp [boundOr, hlower, includes_empty, hle, hmax]
  · unfold filterSweets
    rw [List.filter_filter]
    congr 1
    funext s
    simp

/-- Witness of C17 on the seed dataset. -/
theorem filter_neutral_and_idempotent_witness :
    refText.toLowerCase "" = "" ∧
      filterSweets refHost refText initialData
        { searchTerm := "", category := "all", minPrice := some "", maxPrice := some "" }
        = initialData :=
  ⟨rfl,
    (filter_neutral_and_idempotent refHost refText rfl initialData).1
      (by
        intro s hs
        simp only [initialData, List.mem_cons, List.mem_singleton, List.not_mem_nil,
          or_false] at hs
        rcases hs with rfl | rfl | rfl <;> simp [JsNum.le])⟩

end SweetShop
